import Mathlib

/-!
Verification of the `clean_data` dataset normalizers of the Netflix dashboard
repository.  The repository holds two near-duplicate Streamlit apps; the only
algorithmic content is the `clean_data` function of each:

* variant A, `src/byyy/app.py` (`byyy.clean_data` below): copy, rename
  columns, drop duplicate rows, median-fill numeric columns, drop rows whose
  `user_id`/`movie_id` entry is missing, and parse the first of
  `timestamp`/`date`/`watch_date` as datetimes with unparsable values coerced
  to missing;
* variant B, `src/hii/app.py` (`hii.clean_data` below): copy, drop duplicate
  rows, rename columns, median-fill numeric columns, mode-fill object (text)
  columns via `df[col].mode()[0]` (which raises a `KeyError` when the mode of
  an all-missing column is empty; modelled by an `Option`/failure flag).

A pandas `DataFrame` is embedded as a header (column names with dtypes) plus
a list of rows of cells.  Python strings are embedded as lists of Unicode
code points, numeric values as rationals, datetimes as integers.
-/

/-- Python strings, embedded as their list of Unicode code points. -/
abbrev PyStr := List Nat

/-- Build a `PyStr` from a Lean string literal. -/
def pyStr (s : String) : PyStr := s.toList.map Char.toNat

/-- Whitespace code points stripped by Python's `str.strip()`
(restricted to space, tab, LF, CR, which cover the repository's data). -/
def isWS (n : Nat) : Bool := n == 32 || n == 9 || n == 10 || n == 13

/-- Embedding of Python `str.strip()`: drop leading and trailing whitespace. -/
def stripStr (s : PyStr) : PyStr :=
  ((s.dropWhile isWS).reverse.dropWhile isWS).reverse

/-- Embedding of Python `str.lower()` on one code point (ASCII letters,
which cover the repository's column names). -/
def lowerCp (n : Nat) : Nat := if 65 ≤ n ∧ n ≤ 90 then n + 32 else n

/-- Embedding of Python `str.lower()`. -/
def lowerStr (s : PyStr) : PyStr := s.map lowerCp

/-- Embedding of Python `str.replace(" ", "_")`: the pattern is a single
character, so it is a per-character map (space 32 becomes underscore 95). -/
def underscoreSpaces (s : PyStr) : PyStr :=
  s.map (fun n => if n == 32 then 95 else n)

/-- The column-name normalizer `c.strip().lower().replace(" ", "_")` used by
both variants (src/byyy/app.py line 33, src/hii/app.py line 26). -/
def normName (c : PyStr) : PyStr := underscoreSpaces (lowerStr (stripStr c))

/-- Column dtypes: numeric (`select_dtypes(include=["number"])`), object
(text), and datetime (produced by `pd.to_datetime`). -/
inductive Dtype where
  | num : Dtype
  | obj : Dtype
  | dt : Dtype
deriving DecidableEq

/-- A cell of a dataframe: missing (`NaN`/`NaT`/`None`), a number, a Python
string, or a datetime. -/
inductive Cell where
  | na : Cell
  | num (q : ℚ) : Cell
  | str (s : PyStr) : Cell
  | time (t : ℤ) : Cell
deriving DecidableEq

/-- A pandas `DataFrame`: a header of (column name, dtype) pairs and a list
of rows, each row a list of cells positionally aligned with the header. -/
structure DF where
  header : List (PyStr × Dtype)
  rows : List (List Cell)
deriving DecidableEq

instance : Inhabited DF := ⟨⟨[], []⟩⟩

/-- Default header entry used with `List.getD`. -/
def hdrD : PyStr × Dtype := ([], Dtype.obj)

/-- A cell is admissible in a column of the given dtype (missing is
admissible everywhere, as in pandas). -/
def cellOk : Dtype → Cell → Bool
  | _, Cell.na => true
  | Dtype.num, Cell.num _ => true
  | Dtype.obj, Cell.str _ => true
  | Dtype.dt, Cell.time _ => true
  | _, _ => false

/-- A row is well-formed for a header: right length, cells of the columns'
dtypes. -/
def wfRow (hdr : List (PyStr × Dtype)) (r : List Cell) : Bool :=
  r.length == hdr.length &&
    (List.range hdr.length).all
      (fun j => cellOk (hdr.getD j hdrD).2 (r.getD j Cell.na))

/-- A well-formed dataframe: every row fits the header. -/
def wf (df : DF) : Bool := df.rows.all (wfRow df.header)

/-- No cell of the dataframe is missing. -/
def noMissing (df : DF) : Bool :=
  df.rows.all (fun r => r.all (fun c => c != Cell.na))

/-- Worker for `dedupFirst`: `seen` holds the values already kept. -/
def dedupFirstGo {α : Type} [DecidableEq α] (seen : List α) : List α → List α
  | [] => []
  | a :: l =>
    if a ∈ seen then dedupFirstGo seen l
    else a :: dedupFirstGo (a :: seen) l

/-- Keep the first occurrence of each element, in order: the semantics of
pandas `DataFrame.drop_duplicates()` (default `keep="first"`; pandas treats
missing values as equal to each other when comparing rows). -/
def dedupFirst {α : Type} [DecidableEq α] (l : List α) : List α :=
  dedupFirstGo [] l

/-- Column `j` of a row list. -/
def colCells (rs : List (List Cell)) (j : Nat) : List Cell :=
  rs.map (fun r => r.getD j Cell.na)

/-- The non-missing numeric values of a cell list. -/
def numVals (cs : List Cell) : List ℚ :=
  cs.filterMap (fun c => match c with | Cell.num q => some q | _ => none)

/-- The non-missing string values of a cell list. -/
def strVals (cs : List Cell) : List PyStr :=
  cs.filterMap (fun c => match c with | Cell.str s => some s | _ => none)

/-- Embedding of `Series.fillna(v)` on column `j`: replace missing cells of
column `j` by `v`, leave everything else unchanged. -/
def fillCol (rs : List (List Cell)) (j : Nat) (v : Cell) : List (List Cell) :=
  rs.map (fun r =>
    r.set j (match r.getD j Cell.na with | Cell.na => v | c => c))

/-- Insertion into an ascending list (by a boolean order `le`). -/
def insertAsc {α : Type} (le : α → α → Bool) (a : α) : List α → List α
  | [] => [a]
  | b :: l => if le a b then a :: b :: l else b :: insertAsc le a l

/-- Insertion sort, ascending by `le`; embeds the sorted order pandas uses
for `Series.median` (sorted values) and `Series.mode` (result "in sorted
order" per the pandas documentation). -/
def sortAsc {α : Type} (le : α → α → Bool) (l : List α) : List α :=
  l.foldr (insertAsc le) []

/-- Rational order as a boolean, by cross multiplication (denominators are
positive). -/
def qLe (a b : ℚ) : Bool := decide (a.num * (b.den : ℤ) ≤ b.num * (a.den : ℤ))

/-- Embedding of `Series.median()` over the non-missing values: middle of
the sorted values, mean of the two middles for an even count, `NaN` (none)
for an empty list. -/
def median (l : List ℚ) : Option ℚ :=
  let s := sortAsc qLe l
  if s.length = 0 then none
  else if s.length % 2 = 1 then some (s.getD (s.length / 2) 0)
  else some ((s.getD (s.length / 2 - 1) 0 + s.getD (s.length / 2) 0) / 2)

/-- Python string order (lexicographic on code points) as a boolean `≤`. -/
def lexLe : PyStr → PyStr → Bool
  | [], _ => true
  | _ :: _, [] => false
  | a :: s, b :: t => if a < b then true else if b < a then false else lexLe s t

/-- The largest multiplicity among the values of `l`. -/
def maxCount (l : List PyStr) : Nat :=
  ((dedupFirst l).map (fun a => l.count a)).foldr max 0

/-- Embedding of `Series.mode()` over the non-missing values: the values of
maximal multiplicity, in ascending (sorted) order, as pandas documents. -/
def modeList (l : List PyStr) : List PyStr :=
  sortAsc lexLe ((dedupFirst l).filter (fun a => decide (l.count a = maxCount l)))

/-- Embedding of `Series.mode()[0]`: the first entry of the sorted mode
list; `none` models the `KeyError` raised when the mode list is empty. -/
def mode0 (l : List PyStr) : Option PyStr := (modeList l).head?

/-- Indices of the columns of dtype `t`, in order: embedding of
`df.select_dtypes(...).columns` resolved to positions. -/
def dtypeIdxs (hdr : List (PyStr × Dtype)) (t : Dtype) : List Nat :=
  (List.range hdr.length).filter (fun j => decide ((hdr.getD j hdrD).2 = t))

/-- The numeric-imputation loop shared by both variants:
`for col in numeric_cols: df[col] = df[col].fillna(df[col].median())`.
`fillna(NaN)` (empty median) is a no-op, as in pandas. -/
def fillNumSteps : List Nat → List (List Cell) → List (List Cell)
  | [], rs => rs
  | j :: js, rs =>
    fillNumSteps js
      (match median (numVals (colCells rs j)) with
        | none => rs
        | some m => fillCol rs j (Cell.num m))

/-- Median-fill every numeric column of the dataframe. -/
def fillNumeric (df : DF) : DF :=
  { df with rows := fillNumSteps (dtypeIdxs df.header Dtype.num) df.rows }

/-- The text-imputation loop of variant B:
`for col in ...("object").columns: df[col] = df[col].fillna(df[col].mode()[0])`.
Returns the rows mutated so far plus a success flag; the flag is `false`
when `mode()[0]` raises (`KeyError` on a column with no non-missing value). -/
def fillTextGo : List Nat → List (List Cell) → List (List Cell) × Bool
  | [], rs => (rs, true)
  | j :: js, rs =>
    match mode0 (strVals (colCells rs j)) with
    | none => (rs, false)
    | some v => fillTextGo js (fillCol rs j (Cell.str v))

/-- Embedding of `df.columns = [c.strip().lower().replace(" ", "_") for c in
df.columns]`. -/
def renameCols (df : DF) : DF :=
  { df with header := df.header.map (fun nd => (normName nd.1, nd.2)) }

/-- Embedding of `df = df.drop_duplicates()`. -/
def dropDuplicates (df : DF) : DF :=
  { df with rows := dedupFirst df.rows }

/-- The identifier columns of variant A, in loop order. -/
def keyCols : List PyStr := [pyStr "user_id", pyStr "movie_id"]

/-- Index of the first column with the given name (pandas label lookup,
restricted to unique labels as the spec assumes). -/
def findColIdxAux (name : PyStr) : List (PyStr × Dtype) → Nat → Option Nat
  | [], _ => none
  | nd :: t, i => if nd.1 = name then some i else findColIdxAux name t (i + 1)

/-- Index of the column with the given name, if present. -/
def findColIdx (df : DF) (name : PyStr) : Option Nat :=
  findColIdxAux name df.header 0

/-- One iteration of variant A's identifier loop:
`if key_col in df.columns: df = df[df[key_col].notna()]`. -/
def dropKeyStep (d : DF) (k : PyStr) : DF :=
  match findColIdx d k with
  | some j =>
      { d with rows := d.rows.filter (fun r => decide (r.getD j Cell.na ≠ Cell.na)) }
  | none => d

/-- Variant A's identifier-dropping loop over `["user_id", "movie_id"]`. -/
def dropMissingKeys (df : DF) : DF := keyCols.foldl dropKeyStep df

/-- The date-column candidates of variant A, in priority order. -/
def dateCols : List PyStr := [pyStr "timestamp", pyStr "date", pyStr "watch_date"]

/-- Digit test on a code point. -/
def isDigit (n : Nat) : Bool := 48 ≤ n && n ≤ 57

/-- Numeric value of a list of digit code points. -/
def digitsToNat (l : List Nat) : Nat := l.foldl (fun a n => a * 10 + (n - 48)) 0

/-- Embedding of the string-parsing part of `pd.to_datetime(..., errors="coerce")`,
restricted to ISO `YYYY-MM-DD` literals (the repository's date format); any
other string is unparsable and coerces to missing. -/
def parseIso : PyStr → Option ℤ
  | [a, b, c, d, h1, e, f, h2, g, h] =>
    if isDigit a && isDigit b && isDigit c && isDigit d && h1 == 45 &&
       isDigit e && isDigit f && h2 == 45 && isDigit g && isDigit h then
      let y := digitsToNat [a, b, c, d]
      let mo := digitsToNat [e, f]
      let da := digitsToNat [g, h]
      if 1 ≤ mo ∧ mo ≤ 12 ∧ 1 ≤ da ∧ da ≤ 31 then
        some ((y * 10000 + mo * 100 + da : Nat) : ℤ)
      else none
    else none
  | _ => none

/-- Embedding of `pd.to_datetime(·, errors="coerce")` on one cell: missing
stays missing, numbers are epoch offsets, datetimes are unchanged, strings
parse or coerce to missing. -/
def toDatetimeCell : Cell → Cell
  | Cell.na => Cell.na
  | Cell.num q => Cell.time (q.num.fdiv (q.den : ℤ))
  | Cell.time t => Cell.time t
  | Cell.str s =>
    match parseIso s with
    | some t => Cell.time t
    | none => Cell.na

/-- The index of the first column (in priority order) named `timestamp`,
`date` or `watch_date`: the column variant A's loop parses before `break`. -/
def firstDateIdx (df : DF) : Option Nat :=
  dateCols.findSome? (fun t => findColIdx df t)

/-- Variant A's date-parsing step: parse the first-priority date column in
place (its dtype becomes datetime), or do nothing when none exists. -/
def parseDates (df : DF) : DF :=
  match firstDateIdx df with
  | none => df
  | some j =>
    { header := df.header.set j ((df.header.getD j hdrD).1, Dtype.dt)
      rows := df.rows.map (fun r => r.set j (toDatetimeCell (r.getD j Cell.na))) }

/-- Variant A's pipeline before the date-parsing step (src/byyy/app.py
lines 30-46): copy, rename, drop duplicates, median-fill, drop rows with
missing identifiers. -/
def byyy.preParse (df : DF) : DF :=
  dropMissingKeys (fillNumeric (dropDuplicates (renameCols df)))

/-- `clean_data` of src/byyy/app.py (variant A). -/
def byyy.clean_data (df : DF) : DF := parseDates (byyy.preParse df)

/-- Variant B's pipeline before the text-imputation loop (src/hii/app.py
lines 20-30): copy, drop duplicates, rename, median-fill. -/
def hii.preText (df : DF) : DF := fillNumeric (renameCols (dropDuplicates df))

/-- `clean_data` of src/hii/app.py (variant B); `none` models the
`KeyError` escaping from `df[col].mode()[0]` on a text column with no
non-missing value. -/
def hii.clean_data (df : DF) : Option DF :=
  let p := hii.preText df
  let rb := fillTextGo (dtypeIdxs p.header Dtype.obj) p.rows
  if rb.2 then some { p with rows := rb.1 } else none

/-- Heap-and-references model of the body of variant A's `clean_data`, for
the no-mutation contract: the heap is a list of dataframe objects, `r` the
reference handed in.  `df = df.copy()` allocates; `df.columns = ...` and
`df[col] = ...` mutate the referenced object in place; `df.drop_duplicates()`
and boolean-mask selection allocate new objects.  Returns the final heap and
the reference the function returns. -/
def byyy.cleanProg (h : List DF) (r : Nat) : List DF × Nat :=
  let h1 := h ++ [h.getD r default]
  let d1 := h.length
  let h2 := h1.set d1 (renameCols (h1.getD d1 default))
  let h3 := h2 ++ [dropDuplicates (h2.getD d1 default)]
  let d2 := h2.length
  let h4 := h3.set d2 (fillNumeric (h3.getD d2 default))
  let h5 := h4 ++ [dropMissingKeys (h4.getD d2 default)]
  let d3 := h4.length
  let h6 := h5.set d3 (parseDates (h5.getD d3 default))
  (h6, d3)

/-- Heap-and-references model of the body of variant B's `clean_data`
(same conventions as `byyy.cleanProg`); the reference result is `none` when
the text-imputation loop raises, the heap then holds the partial fills the
loop performed on the copy before failing. -/
def hii.cleanProg (h : List DF) (r : Nat) : List DF × Option Nat :=
  let h1 := h ++ [h.getD r default]
  let d1 := h.length
  let h2 := h1 ++ [dropDuplicates (h1.getD d1 default)]
  let d2 := h1.length
  let h3 := h2.set d2 (renameCols (h2.getD d2 default))
  let h4 := h3.set d2 (fillNumeric (h3.getD d2 default))
  let p := h4.getD d2 default
  let rb := fillTextGo (dtypeIdxs p.header Dtype.obj) p.rows
  let h5 := h4.set d2 { p with rows := rb.1 }
  (h5, if rb.2 then some d2 else none)

/-! Idempotence of the column-name normalizer -/

/-- The per-code-point action of `normName` after stripping (lowercase, then
space to underscore). -/
def nmCp (n : Nat) : Nat := if lowerCp n == 32 then 95 else lowerCp n

/-- The head of the string, if any, is not whitespace. -/
def frontClean (s : PyStr) : Prop := ∀ c, s.head? = some c → isWS c = false

/-- The last element of the string, if any, is not whitespace. -/
def backClean (s : PyStr) : Prop := ∀ c, s.getLast? = some c → isWS c = false

/-- Row lengths of a row list are all `n`. -/
def rowsLen (n : Nat) (rs : List (List Cell)) : Prop := ∀ r ∈ rs, r.length = n

/-! Concrete example frames used in claim theorems and witnesses -/

def exC1 : DF :=
  ⟨[(pyStr "user_id", Dtype.obj)], [[Cell.str (pyStr "a")], [Cell.na]]⟩

def exC2empty : DF := ⟨[(pyStr "genre", Dtype.obj)], []⟩

def exC2 : DF :=
  ⟨[(pyStr "id", Dtype.num), (pyStr "genre", Dtype.obj)],
   [[Cell.num 1, Cell.str (pyStr "drama")], [Cell.num 2, Cell.na]]⟩

def exC3all : DF := ⟨[(pyStr "rating", Dtype.num)], [[Cell.na], [Cell.na]]⟩

def exC3med : DF :=
  ⟨[(pyStr "rating", Dtype.num)],
   [[Cell.num 1], [Cell.num 3], [Cell.na], [Cell.num 5]]⟩

def exC4 : DF := ⟨[(pyStr "rating", Dtype.num)], [[Cell.num 1], [Cell.na]]⟩

def exC4once : DF := ⟨[(pyStr "rating", Dtype.num)], [[Cell.num 1], [Cell.num 1]]⟩

def exC4twice : DF := ⟨[(pyStr "rating", Dtype.num)], [[Cell.num 1]]⟩

def exC4w : DF :=
  ⟨[(pyStr " Rating ", Dtype.num)], [[Cell.num 1], [Cell.num 1], [Cell.num 2]]⟩

def exC5 : DF :=
  ⟨[(pyStr "id", Dtype.num), (pyStr "g", Dtype.obj)],
   [[Cell.num 1, Cell.str (pyStr "b")],
    [Cell.num 2, Cell.str (pyStr "b")],
    [Cell.num 3, Cell.str (pyStr "a")],
    [Cell.num 4, Cell.str (pyStr "a")],
    [Cell.num 5, Cell.na]]⟩

def exC5out : DF :=
  ⟨[(pyStr "id", Dtype.num), (pyStr "g", Dtype.obj)],
   [[Cell.num 1, Cell.str (pyStr "b")],
    [Cell.num 2, Cell.str (pyStr "b")],
    [Cell.num 3, Cell.str (pyStr "a")],
    [Cell.num 4, Cell.str (pyStr "a")],
    [Cell.num 5, Cell.str (pyStr "a")]]⟩

def exC5s : DF :=
  ⟨[(pyStr "id", Dtype.num), (pyStr "g", Dtype.obj)],
   [[Cell.num 1, Cell.str (pyStr "a")],
    [Cell.num 2, Cell.str (pyStr "a")],
    [Cell.num 3, Cell.na],
    [Cell.num 4, Cell.str (pyStr "b")]]⟩

def exC5sOut : DF :=
  ⟨[(pyStr "id", Dtype.num), (pyStr "g", Dtype.obj)],
   [[Cell.num 1, Cell.str (pyStr "a")],
    [Cell.num 2, Cell.str (pyStr "a")],
    [Cell.num 3, Cell.str (pyStr "a")],
    [Cell.num 4, Cell.str (pyStr "b")]]⟩

def exC6 : DF :=
  ⟨[(pyStr "movie_id", Dtype.num), (pyStr " Timestamp", Dtype.obj),
    (pyStr "date", Dtype.obj)],
   [[Cell.num 1, Cell.str (pyStr "2020-01-02"), Cell.str (pyStr "x")],
    [Cell.num 2, Cell.str (pyStr "not-a-date"), Cell.str (pyStr "y")]]⟩

def exC7 : DF := ⟨[(pyStr " Movie ID ", Dtype.num)], [[Cell.num 1]]⟩

def exC7out : DF := ⟨[(pyStr "movie_id", Dtype.num)], [[Cell.num 1]]⟩

def exC8 : DF := ⟨[(pyStr "rating", Dtype.num)], [[Cell.num 1], [Cell.na]]⟩

def exC8w : DF :=
  ⟨[(pyStr "a", Dtype.num)],
   [[Cell.num 1], [Cell.num 2], [Cell.num 1], [Cell.num 3]]⟩

def exC9 : DF := ⟨[(pyStr "user_id", Dtype.num)], [[Cell.num 7]]⟩

def exC10 : DF :=
  ⟨[(pyStr " Rating ", Dtype.num), (pyStr "Watch Duration Min", Dtype.num)],
   [[Cell.num 1, Cell.num 10], [Cell.num 1, Cell.num 10], [Cell.na, Cell.num 20]]⟩

/-! Claim theorems -/

/-- A dataframe as produced by `pd.read_csv`: well-formed, and every object
(text) column holds at least one non-missing value (a column with no values
at all is parsed by pandas as an all-missing numeric column, never as
object dtype with only missing entries). -/
def parsedCSV (df : DF) : Bool :=
  wf df && (List.range df.header.length).all (fun j =>
    !((df.header.getD j hdrD).2 == Dtype.obj) ||
      df.rows.any (fun r => r.getD j Cell.na != Cell.na))

/-- Modelled from the spec: the tie-break rule the spec asserts for mode
imputation, "most frequent value; tie-break = first-encountered in original
row order" — the most frequent value occurring earliest in the column. -/
def modeFirstEncountered (l : List PyStr) : Option PyStr :=
  ((dedupFirst l).filter (fun a => decide (l.count a = maxCount l))).head?

def exC4wOut : DF := ⟨[(pyStr "rating", Dtype.num)], [[Cell.num 1], [Cell.num 2]]⟩

/-! Generic list lemmas -/

theorem getD_set_ne {α : Type} (l : List α) (i j : Nat) (v d : α) (h : i ≠ j) :
    (l.set i v).getD j d = l.getD j d := by
  induction l generalizing i j with
  | nil => simp
  | cons a t ih =>
    cases i with
    | zero =>
      cases j with
      | zero => exact absurd rfl h
      | succ j2 => simp
    | succ i2 =>
      cases j with
      | zero => simp
      | succ j2 => simpa using ih i2 j2 (by omega)

theorem getD_set_self {α : Type} (l : List α) (i : Nat) (v d : α) (h : i < l.length) :
    (l.set i v).getD i d = v := by
  induction l generalizing i with
  | nil => simp at h
  | cons a t ih =>
    cases i with
    | zero => simp
    | succ i2 => simpa using ih i2 (by simpa using h)

theorem set_getD_self {α : Type} (l : List α) (i : Nat) (d : α) (h : i < l.length) :
    l.set i (l.getD i d) = l := by
  induction l generalizing i with
  | nil => simp at h
  | cons a t ih =>
    cases i with
    | zero => simp
    | succ i2 => simpa using ih i2 (by simpa using h)

theorem getD_mem_of_lt {α : Type} (l : List α) (i : Nat) (d : α) (h : i < l.length) :
    l.getD i d ∈ l := by
  rw [List.getD_eq_getElem l d h]
  exact List.getElem_mem h

theorem foldr_max_mem (xs : List Nat) (h : xs ≠ []) : xs.foldr max 0 ∈ xs := by
  induction xs with
  | nil => exact absurd rfl h
  | cons x t ih =>
    cases t with
    | nil => simp
    | cons y u =>
      rcases max_choice x ((y :: u).foldr max 0) with h1 | h1
      · simp only [List.foldr_cons] at h1 ⊢
        rw [h1]; exact List.mem_cons_self _ _
      · simp only [List.foldr_cons] at h1 ⊢
        rw [h1]; exact List.mem_cons_of_mem _ (ih (by simp))

/-! Lemmas about `dedupFirst` (pandas `drop_duplicates`) -/

theorem dedupFirstGo_mem {α : Type} [DecidableEq α] (seen l : List α) (x : α) :
    x ∈ dedupFirstGo seen l ↔ x ∈ l ∧ x ∉ seen := by
  induction l generalizing seen with
  | nil => simp [dedupFirstGo]
  | cons a t ih =>
    by_cases ha : a ∈ seen
    · rw [dedupFirstGo, if_pos ha, ih]
      constructor
      · rintro ⟨hx, hs⟩; exact ⟨List.mem_cons_of_mem _ hx, hs⟩
      · rintro ⟨hx, hs⟩
        rcases List.mem_cons.mp hx with rfl | hx
        · exact absurd ha hs
        · exact ⟨hx, hs⟩
    · rw [dedupFirstGo, if_neg ha]
      constructor
      · intro hx
        rcases List.mem_cons.mp hx with rfl | hx
        · exact ⟨List.mem_cons_self _ _, ha⟩
        · rcases (ih _).mp hx with ⟨h1, h2⟩
          refine ⟨List.mem_cons_of_mem _ h1, fun hc => h2 (List.mem_cons_of_mem _ hc)⟩
      · rintro ⟨hx, hs⟩
        rcases List.mem_cons.mp hx with rfl | hx
        · exact List.mem_cons_self _ _
        · by_cases hxa : x = a
          · subst hxa; exact List.mem_cons_self _ _
          · exact List.mem_cons_of_mem _ ((ih _).mpr
              ⟨hx, by simp [List.mem_cons, hxa, hs]⟩)

theorem mem_dedupFirst {α : Type} [DecidableEq α] (l : List α) (x : α) :
    x ∈ dedupFirst l ↔ x ∈ l := by
  rw [dedupFirst, dedupFirstGo_mem]; simp

theorem dedupFirstGo_nodup {α : Type} [DecidableEq α] (seen l : List α) :
    (dedupFirstGo seen l).Nodup := by
  induction l generalizing seen with
  | nil => simp [dedupFirstGo]
  | cons a t ih =>
    by_cases ha : a ∈ seen
    · rw [dedupFirstGo, if_pos ha]; exact ih _
    · rw [dedupFirstGo, if_neg ha]
      refine List.nodup_cons.mpr ⟨fun hc => ?_, ih _⟩
      exact ((dedupFirstGo_mem _ _ _).mp hc).2 (List.mem_cons_self _ _)

theorem dedupFirst_nodup {α : Type} [DecidableEq α] (l : List α) :
    (dedupFirst l).Nodup := dedupFirstGo_nodup [] l

theorem dedupFirstGo_eq_self {α : Type} [DecidableEq α] (seen l : List α)
    (h1 : l.Nodup) (h2 : ∀ x ∈ l, x ∉ seen) : dedupFirstGo seen l = l := by
  induction l generalizing seen with
  | nil => rfl
  | cons a t ih =>
    have ha : a ∉ seen := h2 a (List.mem_cons_self _ _)
    rw [dedupFirstGo, if_neg ha]
    congr 1
    refine ih _ (List.nodup_cons.mp h1).2 (fun x hx => ?_)
    intro hc
    rcases List.mem_cons.mp hc with rfl | hc
    · exact (List.nodup_cons.mp h1).1 hx
    · exact h2 x (List.mem_cons_of_mem _ hx) hc

theorem dedupFirst_eq_self {α : Type} [DecidableEq α] (l : List α) (h : l.Nodup) :
    dedupFirst l = l := dedupFirstGo_eq_self [] l h (by simp)

theorem dedupFirst_idem {α : Type} [DecidableEq α] (l : List α) :
    dedupFirst (dedupFirst l) = dedupFirst l :=
  dedupFirst_eq_self _ (dedupFirst_nodup l)

theorem dedupFirstGo_mid {α : Type} [DecidableEq α] (ys : List α) :
    ∀ (seen zs : List α) (a : α), a ∈ seen → (ys ++ zs).Nodup →
    (∀ x ∈ ys ++ zs, x ∉ seen) →
    dedupFirstGo seen (ys ++ a :: zs) = ys ++ zs := by
  induction ys with
  | nil =>
    intro seen zs a ha hn hs
    simp only [List.nil_append]
    rw [dedupFirstGo, if_pos ha]
    exact dedupFirstGo_eq_self _ _ hn hs
  | cons y ys ih =>
    intro seen zs a ha hn hs
    have hy : y ∉ seen := hs y (List.mem_cons_self _ _)
    simp only [List.cons_append]
    rw [dedupFirstGo, if_neg hy]
    congr 1
    refine ih _ _ _ (List.mem_cons_of_mem _ ha) (List.nodup_cons.mp (by simpa using hn)).2
      (fun x hx => ?_)
    intro hc
    rcases List.mem_cons.mp hc with rfl | hc
    · exact (List.nodup_cons.mp (by simpa using hn)).1 hx
    · exact hs x (List.mem_cons_of_mem _ hx) hc

theorem dedupFirstGo_one_dup {α : Type} [DecidableEq α] (xs : List α) :
    ∀ (seen ys zs : List α) (a : α), (xs ++ a :: (ys ++ zs)).Nodup →
    (∀ x ∈ xs ++ a :: (ys ++ zs), x ∉ seen) →
    dedupFirstGo seen (xs ++ a :: (ys ++ a :: zs)) = xs ++ a :: (ys ++ zs) := by
  induction xs with
  | nil =>
    intro seen ys zs a hn hs
    simp only [List.nil_append] at *
    have ha : a ∉ seen := hs a (List.mem_cons_self _ _)
    rw [dedupFirstGo, if_neg ha]
    congr 1
    refine dedupFirstGo_mid _ _ _ _ (List.mem_cons_self _ _)
      (List.nodup_cons.mp hn).2 (fun x hx => ?_)
    intro hc
    rcases List.mem_cons.mp hc with rfl | hc
    · exact (List.nodup_cons.mp hn).1 hx
    · exact hs x (List.mem_cons_of_mem _ hx) hc
  | cons w xs ih =>
    intro seen ys zs a hn hs
    have hw : w ∉ seen := hs w (List.mem_cons_self _ _)
    simp only [List.cons_append]
    rw [dedupFirstGo, if_neg hw]
    congr 1
    refine ih _ _ _ _ (List.nodup_cons.mp (by simpa using hn)).2 (fun x hx => ?_)
    intro hc
    rcases List.mem_cons.mp hc with rfl | hc
    · exact (List.nodup_cons.mp (by simpa using hn)).1 hx
    · exact hs x (List.mem_cons_of_mem _ hx) hc

theorem dedupFirst_one_dup {α : Type} [DecidableEq α] (xs ys zs : List α) (a : α)
    (hn : (xs ++ a :: (ys ++ zs)).Nodup) :
    dedupFirst (xs ++ a :: (ys ++ a :: zs)) = xs ++ a :: (ys ++ zs) :=
  dedupFirstGo_one_dup xs [] ys zs a hn (by simp)

/-! The lexicographic string order and insertion sort -/

theorem lexLe_refl (s : PyStr) : lexLe s s = true := by
  induction s with
  | nil => rfl
  | cons a t ih => simp [lexLe, Nat.lt_irrefl, ih]

theorem lexLe_total (s t : PyStr) : lexLe s t = true ∨ lexLe t s = true := by
  induction s generalizing t with
  | nil => exact Or.inl rfl
  | cons a s ih =>
    cases t with
    | nil => exact Or.inr rfl
    | cons b t2 =>
      rcases Nat.lt_trichotomy a b with h | h | h
      · left; simp [lexLe, h]
      · subst h
        rcases ih t2 with h2 | h2
        · left; simpa [lexLe, Nat.lt_irrefl] using h2
        · right; simpa [lexLe, Nat.lt_irrefl] using h2
      · right; simp [lexLe, h]

theorem lexLe_trans (s t u : PyStr) (h1 : lexLe s t = true) (h2 : lexLe t u = true) :
    lexLe s u = true := by
  induction s generalizing t u with
  | nil => rfl
  | cons a s ih =>
    cases t with
    | nil => simp [lexLe] at h1
    | cons b t2 =>
      cases u with
      | nil => simp [lexLe] at h2
      | cons c u2 =>
        rcases Nat.lt_trichotomy a b with hab | hab | hab
        · rcases Nat.lt_trichotomy b c with hbc | hbc | hbc
          · simp [lexLe, Nat.lt_trans hab hbc]
          · subst hbc; simp [lexLe, hab]
          · exfalso; simp [lexLe, Nat.lt_asymm hbc, hbc] at h2
        · subst hab
          rcases Nat.lt_trichotomy a c with hac | hac | hac
          · simp [lexLe, hac]
          · subst hac
            simp only [lexLe, Nat.lt_irrefl, if_false] at h1 h2 ⊢
            exact ih t2 u2 h1 h2
          · exfalso; simp [lexLe, Nat.lt_asymm hac, hac] at h2
        · exfalso; simp [lexLe, Nat.lt_asymm hab, hab] at h1

theorem mem_insertAsc {α : Type} (le : α → α → Bool) (a x : α) (l : List α) :
    x ∈ insertAsc le a l ↔ x = a ∨ x ∈ l := by
  induction l with
  | nil => simp [insertAsc]
  | cons b t ih =>
    by_cases h : le a b = true
    · simp only [insertAsc, if_pos h, List.mem_cons]
    · simp only [insertAsc, if_neg h, List.mem_cons, ih]; tauto

theorem length_insertAsc {α : Type} (le : α → α → Bool) (a : α) (l : List α) :
    (insertAsc le a l).length = l.length + 1 := by
  induction l with
  | nil => rfl
  | cons b t ih =>
    by_cases h : le a b = true
    · simp [insertAsc, h]
    · simp [insertAsc, h, ih]

theorem length_sortAsc {α : Type} (le : α → α → Bool) (l : List α) :
    (sortAsc le l).length = l.length := by
  induction l with
  | nil => rfl
  | cons a t ih => simp [sortAsc, length_insertAsc] at *; omega

theorem mem_sortAsc {α : Type} (le : α → α → Bool) (x : α) (l : List α) :
    x ∈ sortAsc le l ↔ x ∈ l := by
  induction l with
  | nil => simp [sortAsc]
  | cons a t ih =>
    simp only [sortAsc, List.foldr_cons] at *
    rw [mem_insertAsc, ih, List.mem_cons]

theorem pairwise_insertAsc {α : Type} (le : α → α → Bool)
    (htot : ∀ x y, le x y = true ∨ le y x = true)
    (htr : ∀ x y z, le x y = true → le y z = true → le x z = true)
    (a : α) (l : List α) (h : l.Pairwise (fun x y => le x y = true)) :
    (insertAsc le a l).Pairwise (fun x y => le x y = true) := by
  induction l with
  | nil => simp [insertAsc]
  | cons b t ih =>
    by_cases hab : le a b = true
    · rw [insertAsc, if_pos hab]
      refine List.Pairwise.cons (fun x hx => ?_) h
      rcases List.mem_cons.mp hx with rfl | hx
      · exact hab
      · exact htr a b x hab (List.rel_of_pairwise_cons h hx)
    · rw [insertAsc, if_neg hab]
      refine List.Pairwise.cons (fun x hx => ?_) (ih (List.Pairwise.of_cons h))
      rcases (mem_insertAsc le a x t).mp hx with rfl | hx
      · rcases htot x b with h2 | h2
        · exact absurd h2 hab
        · exact h2
      · exact List.rel_of_pairwise_cons h hx

theorem pairwise_sortAsc {α : Type} (le : α → α → Bool)
    (htot : ∀ x y, le x y = true ∨ le y x = true)
    (htr : ∀ x y z, le x y = true → le y z = true → le x z = true)
    (l : List α) : (sortAsc le l).Pairwise (fun x y => le x y = true) := by
  induction l with
  | nil => simp [sortAsc]
  | cons a t ih => exact pairwise_insertAsc le htot htr a _ ih

theorem sortAsc_head_le {α : Type} (le : α → α → Bool)
    (htot : ∀ x y, le x y = true ∨ le y x = true)
    (htr : ∀ x y z, le x y = true → le y z = true → le x z = true)
    (hrefl : ∀ x, le x x = true)
    (l : List α) (v : α) (rest : List α) (hs : sortAsc le l = v :: rest)
    (x : α) (hx : x ∈ l) : le v x = true := by
  have hmem : x ∈ v :: rest := by
    rw [← hs, mem_sortAsc]; exact hx
  rcases List.mem_cons.mp hmem with rfl | hmem
  · exact hrefl x
  · have hp := pairwise_sortAsc le htot htr l
    rw [hs] at hp
    exact List.rel_of_pairwise_cons hp hmem

/-! Facts about `mode0` and `median` -/

theorem dedupFirst_ne_nil {α : Type} [DecidableEq α] (l : List α) (h : l ≠ []) :
    dedupFirst l ≠ [] := by
  cases l with
  | nil => exact absurd rfl h
  | cons a t =>
    rw [dedupFirst, dedupFirstGo, if_neg (List.not_mem_nil a)]
    exact List.cons_ne_nil _ _

theorem modeList_ne_nil (l : List PyStr) (h : l ≠ []) : modeList l ≠ [] := by
  have hd : dedupFirst l ≠ [] := dedupFirst_ne_nil l h
  have hc : ((dedupFirst l).map (fun a => l.count a)) ≠ [] := by
    simpa using hd
  have hmax := foldr_max_mem _ hc
  rw [List.mem_map] at hmax
  obtain ⟨a, ha, hcount⟩ := hmax
  have hmem : a ∈ (dedupFirst l).filter (fun a => decide (l.count a = maxCount l)) := by
    rw [List.mem_filter]
    exact ⟨ha, by simpa [maxCount] using hcount⟩
  intro hnil
  have : ((dedupFirst l).filter (fun a => decide (l.count a = maxCount l))).length = 0 := by
    have := congrArg List.length hnil
    simpa [modeList, length_sortAsc] using this
  rw [List.length_eq_zero] at this
  rw [this] at hmem
  exact List.not_mem_nil a hmem

theorem mode0_isSome (l : List PyStr) (h : l ≠ []) : ∃ v, mode0 l = some v := by
  have := modeList_ne_nil l h
  cases hm : modeList l with
  | nil => exact absurd hm this
  | cons v rest => exact ⟨v, by simp [mode0, hm]⟩

theorem mode0_spec (l : List PyStr) (v : PyStr) (h : mode0 l = some v) :
    v ∈ l ∧ l.count v = maxCount l ∧
      ∀ w ∈ l, l.count w = maxCount l → lexLe v w = true := by
  rw [mode0] at h
  cases hm : modeList l with
  | nil => rw [hm] at h; simp at h
  | cons v0 rest =>
    rw [hm] at h
    simp only [List.head?_cons, Option.some.injEq] at h
    subst h
    have hv : v0 ∈ modeList l := by rw [hm]; exact List.mem_cons_self _ _
    have hv2 : v0 ∈ (dedupFirst l).filter (fun a => decide (l.count a = maxCount l)) := by
      rw [modeList, mem_sortAsc] at hv; exact hv
    rw [List.mem_filter] at hv2
    refine ⟨(mem_dedupFirst l v0).mp hv2.1, by simpa using hv2.2, fun w hw hcw => ?_⟩
    have hwmem : w ∈ (dedupFirst l).filter (fun a => decide (l.count a = maxCount l)) := by
      rw [List.mem_filter]
      exact ⟨(mem_dedupFirst l w).mpr hw, by simpa using hcw⟩
    have hs : sortAsc lexLe ((dedupFirst l).filter
        (fun a => decide (l.count a = maxCount l))) = v0 :: rest := by
      rw [← modeList]; exact hm
    exact sortAsc_head_le lexLe lexLe_total lexLe_trans lexLe_refl _ v0 rest hs w hwmem

theorem median_isSome (l : List ℚ) (h : l ≠ []) : ∃ m, median l = some m := by
  have hlen : ¬ (sortAsc qLe l).length = 0 := by
    rw [length_sortAsc]
    simpa using h
  simp only [median]
  rw [if_neg hlen]
  by_cases hodd : (sortAsc qLe l).length % 2 = 1
  · rw [if_pos hodd]; exact ⟨_, rfl⟩
  · rw [if_neg hodd]; exact ⟨_, rfl⟩

theorem normName_eq_map (c : PyStr) : normName c = (stripStr c).map nmCp := by
  rw [normName, underscoreSpaces, lowerStr, List.map_map]
  rfl

theorem nmCp_eq (n : Nat) :
    nmCp n = if 65 ≤ n ∧ n ≤ 90 then n + 32 else if n = 32 then 95 else n := by
  unfold nmCp lowerCp
  by_cases hup : 65 ≤ n ∧ n ≤ 90
  · simp only [if_pos hup]
    have hne : ((n + 32 : Nat) == 32) = false := by
      simp only [beq_eq_false_iff_ne, ne_eq]; omega
    simp [hne]
  · simp only [if_neg hup]
    by_cases hz : n = 32
    · subst hz; simp
    · have hne : ((n : Nat) == 32) = false := by simp [hz]
      simp [hne, hz]

theorem isWS_nmCp (n : Nat) (h : isWS n = false) : isWS (nmCp n) = false := by
  rw [nmCp_eq]
  simp only [isWS, Bool.or_eq_false_iff, beq_eq_false_iff_ne, ne_eq] at h ⊢
  split_ifs with h1 h2 <;> omega

theorem nmCp_idem (n : Nat) : nmCp (nmCp n) = nmCp n := by
  simp only [nmCp_eq]
  split_ifs <;> omega

theorem frontClean_dropWhile (l : PyStr) : frontClean (l.dropWhile isWS) := by
  induction l with
  | nil => intro c hc; simp at hc
  | cons a t ih =>
    intro c hc
    rw [List.dropWhile_cons] at hc
    cases ha : isWS a with
    | true => simp only [ha, if_true] at hc; exact ih c hc
    | false =>
      simp only [ha, Bool.false_eq_true, if_false, List.head?_cons,
        Option.some.injEq] at hc
      subst hc; exact ha

theorem dropWhile_eq_self_of_frontClean (l : PyStr) (h : frontClean l) :
    l.dropWhile isWS = l := by
  cases l with
  | nil => rfl
  | cons a t =>
    have ha := h a rfl
    rw [List.dropWhile_cons, if_neg (by simp [ha])]

theorem getLast?_dropWhile (p : Nat → Bool) (l : PyStr) (h : l.dropWhile p ≠ []) :
    (l.dropWhile p).getLast? = l.getLast? := by
  induction l with
  | nil => simp at h
  | cons a t ih =>
    rw [List.dropWhile_cons] at h ⊢
    by_cases ha : p a = true
    · rw [if_pos ha] at h ⊢
      have ht : t ≠ [] := by
        intro he; subst he; simp at h
      rw [ih h]
      cases t with
      | nil => exact absurd rfl ht
      | cons b u => rw [List.getLast?_cons_cons]
    · rw [if_neg ha]

theorem frontClean_map (l : PyStr) (h : frontClean l) : frontClean (l.map nmCp) := by
  intro c hc
  rw [List.head?_map] at hc
  cases hl : l.head? with
  | none => rw [hl] at hc; simp at hc
  | some a =>
    rw [hl] at hc
    simp only [Option.map_some', Option.some.injEq] at hc
    subst hc
    exact isWS_nmCp a (h a hl)

theorem backClean_map (l : PyStr) (h : backClean l) : backClean (l.map nmCp) := by
  intro c hc
  rw [List.getLast?_map] at hc
  cases hl : l.getLast? with
  | none => rw [hl] at hc; simp at hc
  | some a =>
    rw [hl] at hc
    simp only [Option.map_some', Option.some.injEq] at hc
    subst hc
    exact isWS_nmCp a (h a hl)

theorem frontClean_stripStr (s : PyStr) : frontClean (stripStr s) := by
  intro c hc
  rw [stripStr, List.head?_reverse] at hc
  have hne : (s.dropWhile isWS).reverse.dropWhile isWS ≠ [] := by
    intro he; rw [he] at hc; simp at hc
  rw [getLast?_dropWhile _ _ hne, List.getLast?_reverse] at hc
  exact frontClean_dropWhile s c hc

theorem backClean_stripStr (s : PyStr) : backClean (stripStr s) := by
  intro c hc
  rw [stripStr, List.getLast?_reverse] at hc
  exact frontClean_dropWhile _ c hc

theorem stripStr_eq_self (l : PyStr) (hf : frontClean l) (hb : backClean l) :
    stripStr l = l := by
  rw [stripStr, dropWhile_eq_self_of_frontClean l hf]
  have hfr : frontClean l.reverse := by
    intro c hc
    rw [List.head?_reverse] at hc
    exact hb c hc
  rw [dropWhile_eq_self_of_frontClean _ hfr, List.reverse_reverse]

theorem normName_idem (c : PyStr) : normName (normName c) = normName c := by
  rw [normName_eq_map, normName_eq_map]
  rw [stripStr_eq_self _ (frontClean_map _ (frontClean_stripStr c))
      (backClean_map _ (backClean_stripStr c))]
  rw [List.map_map]
  exact List.map_congr_left (fun a _ => nmCp_idem a)

/-! Header bookkeeping through the pipelines -/

theorem header_dropDuplicates (df : DF) : (dropDuplicates df).header = df.header := rfl

theorem header_fillNumeric (df : DF) : (fillNumeric df).header = df.header := rfl

theorem rows_renameCols (df : DF) : (renameCols df).rows = df.rows := rfl

theorem header_dropKeyStep (d : DF) (k : PyStr) : (dropKeyStep d k).header = d.header := by
  rw [dropKeyStep]
  cases findColIdx d k <;> rfl

theorem header_foldl_dropKeyStep (ks : List PyStr) (d : DF) :
    (ks.foldl dropKeyStep d).header = d.header := by
  induction ks generalizing d with
  | nil => rfl
  | cons k t ih => rw [List.foldl_cons, ih, header_dropKeyStep]

theorem header_dropMissingKeys (df : DF) : (dropMissingKeys df).header = df.header :=
  header_foldl_dropKeyStep keyCols df

theorem names_renameCols (df : DF) :
    (renameCols df).header.map Prod.fst = df.header.map (fun nd => normName nd.1) := by
  rw [renameCols, List.map_map]
  rfl

theorem dtypes_renameCols (df : DF) :
    (renameCols df).header.map Prod.snd = df.header.map Prod.snd := by
  rw [renameCols, List.map_map]
  rfl

theorem map_fst_set_dtype (l : List (PyStr × Dtype)) (j : Nat) (t : Dtype) :
    (l.set j ((l.getD j hdrD).1, t)).map Prod.fst = l.map Prod.fst := by
  induction l generalizing j with
  | nil => simp
  | cons a tl ih =>
    cases j with
    | zero => simp
    | succ j2 => simpa using ih j2

/-! Column lookup (`findColIdx`) -/

theorem findColIdxAux_spec (name : PyStr) (l : List (PyStr × Dtype)) :
    ∀ (i j : Nat), findColIdxAux name l i = some j →
    i ≤ j ∧ j - i < l.length ∧ (l.getD (j - i) hdrD).1 = name := by
  induction l with
  | nil => intro i j h; simp [findColIdxAux] at h
  | cons a t ih =>
    intro i j h
    rw [findColIdxAux] at h
    by_cases ha : a.1 = name
    · rw [if_pos ha] at h
      injection h with h
      subst h
      simp [ha]
    · rw [if_neg ha] at h
      obtain ⟨h1, h2, h3⟩ := ih (i + 1) j h
      refine ⟨by omega, by simp only [List.length_cons]; omega, ?_⟩
      have he : j - i = (j - (i + 1)) + 1 := by omega
      rw [he]
      simpa using h3

theorem findColIdx_spec (d : DF) (k : PyStr) (j : Nat) (h : findColIdx d k = some j) :
    j < d.header.length ∧ (d.header.getD j hdrD).1 = k := by
  obtain ⟨h1, h2, h3⟩ := findColIdxAux_spec k d.header 0 j h
  constructor
  · simpa using h2
  · simpa using h3

theorem findColIdxAux_eq_none (name : PyStr) (l : List (PyStr × Dtype))
    (h : ∀ nd ∈ l, nd.1 ≠ name) : ∀ i, findColIdxAux name l i = none := by
  induction l with
  | nil => intro i; rfl
  | cons a t ih =>
    intro i
    rw [findColIdxAux, if_neg (h a (List.mem_cons_self _ _))]
    exact ih (fun nd hnd => h nd (List.mem_cons_of_mem _ hnd)) (i + 1)

theorem findColIdxAux_congr (name : PyStr) (l : List (PyStr × Dtype)) :
    ∀ (l2 : List (PyStr × Dtype)) (i : Nat), l.map Prod.fst = l2.map Prod.fst →
    findColIdxAux name l i = findColIdxAux name l2 i := by
  induction l with
  | nil =>
    intro l2 i h
    cases l2 with
    | nil => rfl
    | cons b t => simp at h
  | cons a t ih =>
    intro l2 i h
    cases l2 with
    | nil => simp at h
    | cons b t2 =>
      simp only [List.map_cons, List.cons.injEq] at h
      rw [findColIdxAux, findColIdxAux, h.1]
      by_cases hb : b.1 = name
      · rw [if_pos hb, if_pos hb]
      · rw [if_neg hb, if_neg hb]
        exact ih t2 (i + 1) h.2

theorem findColIdx_congr (d d2 : DF) (k : PyStr)
    (h : d.header.map Prod.fst = d2.header.map Prod.fst) :
    findColIdx d k = findColIdx d2 k :=
  findColIdxAux_congr k d.header d2.header 0 h

/-! The identifier-dropping loop -/

theorem rows_dropKeyStep_sublist (d : DF) (k : PyStr) :
    (dropKeyStep d k).rows.Sublist d.rows := by
  rw [dropKeyStep]
  cases findColIdx d k with
  | none => exact List.Sublist.refl _
  | some j => exact List.filter_sublist _

theorem rows_foldl_dropKeyStep_sublist (ks : List PyStr) (d : DF) :
    (ks.foldl dropKeyStep d).rows.Sublist d.rows := by
  induction ks generalizing d with
  | nil => exact List.Sublist.refl _
  | cons k t ih => exact (ih _).trans (rows_dropKeyStep_sublist d k)

theorem foldl_dropKeyStep_noNa (ks : List PyStr) :
    ∀ (d : DF) (k : PyStr), k ∈ ks → ∀ (j : Nat), findColIdx d k = some j →
    ∀ r ∈ (ks.foldl dropKeyStep d).rows, r.getD j Cell.na ≠ Cell.na := by
  induction ks with
  | nil => intro d k hk; simp at hk
  | cons k0 t ih =>
    intro d k hk j hj r hr
    rw [List.foldl_cons] at hr
    by_cases hkk : k = k0
    · subst hkk
      have hr2 : r ∈ (dropKeyStep d k).rows :=
        (rows_foldl_dropKeyStep_sublist t (dropKeyStep d k)).mem hr
      simp only [dropKeyStep, hj] at hr2
      have := List.of_mem_filter hr2
      simpa using this
    · have hkt : k ∈ t := by
        rcases List.mem_cons.mp hk with h | h
        · exact absurd h hkk
        · exact h
      have hj2 : findColIdx (dropKeyStep d k0) k = some j := by
        rw [findColIdx_congr (dropKeyStep d k0) d k (by rw [header_dropKeyStep])]
        exact hj
      exact ih (dropKeyStep d k0) k hkt j hj2 r hr

/-! The date-parsing step -/

theorem exists_mem_of_findSome_eq_some {α β : Type} (f : α → Option β) (l : List α)
    (b : β) (h : l.findSome? f = some b) : ∃ a ∈ l, f a = some b := by
  induction l with
  | nil => simp at h
  | cons a t ih =>
    rw [List.findSome?_cons] at h
    cases hf : f a with
    | some v =>
      rw [hf] at h
      have hv : v = b := by simpa using h
      exact ⟨a, List.mem_cons_self _ _, by rw [hf, hv]⟩
    | none =>
      rw [hf] at h
      have h2 : List.findSome? f t = some b := by simpa using h
      obtain ⟨x, hx, hfx⟩ := ih h2
      exact ⟨x, List.mem_cons_of_mem _ hx, hfx⟩

theorem parseDates_none (df : DF) (h : firstDateIdx df = none) : parseDates df = df := by
  simp only [parseDates, h]

theorem parseDates_some_rows (df : DF) (j : Nat) (h : firstDateIdx df = some j) :
    (parseDates df).rows =
      df.rows.map (fun r => r.set j (toDatetimeCell (r.getD j Cell.na))) := by
  simp only [parseDates, h]

theorem parseDates_some_header (df : DF) (j : Nat) (h : firstDateIdx df = some j) :
    (parseDates df).header = df.header.set j ((df.header.getD j hdrD).1, Dtype.dt) := by
  simp only [parseDates, h]

theorem names_parseDates (df : DF) :
    (parseDates df).header.map Prod.fst = df.header.map Prod.fst := by
  cases h : firstDateIdx df with
  | none => rw [parseDates_none df h]
  | some j =>
    rw [parseDates_some_header df j h]
    exact map_fst_set_dtype df.header j Dtype.dt

theorem firstDateIdx_some_name (df : DF) (j : Nat) (h : firstDateIdx df = some j) :
    (df.header.getD j hdrD).1 ∈ dateCols := by
  obtain ⟨t, ht, hft⟩ := exists_mem_of_findSome_eq_some _ _ _ h
  rw [(findColIdx_spec df t j hft).2]
  exact ht

theorem firstDateIdx_congr (d d2 : DF)
    (h : d.header.map Prod.fst = d2.header.map Prod.fst) :
    firstDateIdx d = firstDateIdx d2 := by
  rw [firstDateIdx, firstDateIdx]
  have hf : (fun t => findColIdx d t) = (fun t => findColIdx d2 t) :=
    funext (fun t => findColIdx_congr d d2 t h)
  rw [hf]

/-! The imputation loops -/

theorem colCells_fillCol_ne (rs : List (List Cell)) (j j2 : Nat) (v : Cell)
    (h : j ≠ j2) : colCells (fillCol rs j v) j2 = colCells rs j2 := by
  rw [colCells, fillCol, List.map_map]
  exact List.map_congr_left (fun r _ => getD_set_ne _ _ _ _ _ h)

theorem colCells_fillNumSteps_ne (js : List Nat) :
    ∀ (rs : List (List Cell)) (j : Nat), j ∉ js →
    colCells (fillNumSteps js rs) j = colCells rs j := by
  induction js with
  | nil => intro rs j _; rfl
  | cons j0 t ih =>
    intro rs j h
    have hne : j0 ≠ j := fun he => h (he ▸ List.mem_cons_self _ _)
    have hnt : j ∉ t := fun hc => h (List.mem_cons_of_mem _ hc)
    rw [fillNumSteps]
    cases hm : median (numVals (colCells rs j0)) with
    | none => exact ih rs j hnt
    | some m => rw [ih _ j hnt, colCells_fillCol_ne rs j0 j _ hne]

theorem colCells_fillTextGo_ne (js : List Nat) :
    ∀ (rs : List (List Cell)) (j : Nat), j ∉ js →
    colCells ((fillTextGo js rs).1) j = colCells rs j := by
  induction js with
  | nil => intro rs j _; rfl
  | cons j0 t ih =>
    intro rs j h
    have hne : j0 ≠ j := fun he => h (he ▸ List.mem_cons_self _ _)
    have hnt : j ∉ t := fun hc => h (List.mem_cons_of_mem _ hc)
    rw [fillTextGo]
    cases hm : mode0 (strVals (colCells rs j0)) with
    | none => rfl
    | some v => rw [ih _ j hnt, colCells_fillCol_ne rs j0 j _ hne]

theorem rowsLen_fillCol (n : Nat) (rs : List (List Cell)) (j : Nat) (v : Cell)
    (h : rowsLen n rs) : rowsLen n (fillCol rs j v) := by
  intro r2 hr2
  rw [fillCol, List.mem_map] at hr2
  obtain ⟨r, hr, rfl⟩ := hr2
  rw [List.length_set]
  exact h r hr

theorem rowsLen_fillNumSteps (js : List Nat) :
    ∀ (n : Nat) (rs : List (List Cell)), rowsLen n rs →
    rowsLen n (fillNumSteps js rs) := by
  induction js with
  | nil => intro n rs h; exact h
  | cons j0 t ih =>
    intro n rs h
    rw [fillNumSteps]
    cases hm : median (numVals (colCells rs j0)) with
    | none => exact ih n rs h
    | some m => exact ih n _ (rowsLen_fillCol n rs j0 _ h)

theorem rowsLen_fillTextGo (js : List Nat) :
    ∀ (n : Nat) (rs : List (List Cell)), rowsLen n rs →
    rowsLen n ((fillTextGo js rs).1) := by
  induction js with
  | nil => intro n rs h; exact h
  | cons j0 t ih =>
    intro n rs h
    rw [fillTextGo]
    cases hm : mode0 (strVals (colCells rs j0)) with
    | none => exact h
    | some v => exact ih n _ (rowsLen_fillCol n rs j0 _ h)

theorem rowsLen_sublist (n : Nat) (rs rs2 : List (List Cell))
    (hsub : rs2.Sublist rs) (h : rowsLen n rs) : rowsLen n rs2 :=
  fun r hr => h r (hsub.mem hr)

/-! Accessors for `wf` and `noMissing` -/

theorem wf_row_length (df : DF) (hwf : wf df = true) (r : List Cell)
    (hr : r ∈ df.rows) : r.length = df.header.length := by
  rw [wf, List.all_eq_true] at hwf
  have h := hwf r hr
  rw [wfRow, Bool.and_eq_true, beq_iff_eq] at h
  exact h.1

theorem wf_cellOk (df : DF) (hwf : wf df = true) (r : List Cell)
    (hr : r ∈ df.rows) (j : Nat) (hj : j < df.header.length) :
    cellOk (df.header.getD j hdrD).2 (r.getD j Cell.na) = true := by
  rw [wf, List.all_eq_true] at hwf
  have h := hwf r hr
  rw [wfRow, Bool.and_eq_true, beq_iff_eq] at h
  rw [List.all_eq_true] at *
  exact h.2 j (List.mem_range.mpr hj)

theorem noMissing_cell (df : DF) (h : noMissing df = true) (r : List Cell)
    (hr : r ∈ df.rows) (c : Cell) (hc : c ∈ r) : c ≠ Cell.na := by
  rw [noMissing, List.all_eq_true] at h
  have h2 := h r hr
  rw [List.all_eq_true] at h2
  simpa using h2 c hc

/-! No-op lemmas for inputs with no missing values -/

theorem fillCol_eq_self (rs : List (List Cell)) (j : Nat) (v : Cell)
    (h : ∀ r ∈ rs, j < r.length ∧ r.getD j Cell.na ≠ Cell.na) :
    fillCol rs j v = rs := by
  have hr : ∀ r ∈ rs,
      r.set j (match r.getD j Cell.na with | Cell.na => v | c => c) = r := by
    intro r hrm
    obtain ⟨hlt, hna⟩ := h r hrm
    cases hc : r.getD j Cell.na with
    | na => exact absurd hc hna
    | num q =>
      show r.set j (Cell.num q) = r
      rw [← hc]; exact set_getD_self r j Cell.na hlt
    | str s =>
      show r.set j (Cell.str s) = r
      rw [← hc]; exact set_getD_self r j Cell.na hlt
    | time t =>
      show r.set j (Cell.time t) = r
      rw [← hc]; exact set_getD_self r j Cell.na hlt
  exact (List.map_congr_left hr).trans (List.map_id rs)

theorem fillNumSteps_eq_self (js : List Nat) :
    ∀ (rs : List (List Cell)), (∀ r ∈ rs, ∀ j ∈ js, j < r.length) →
    (∀ r ∈ rs, ∀ c ∈ r, c ≠ Cell.na) → fillNumSteps js rs = rs := by
  induction js with
  | nil => intro rs _ _; rfl
  | cons j0 t ih =>
    intro rs h hna
    have hfc : ∀ v, fillCol rs j0 v = rs := by
      intro v
      refine fillCol_eq_self rs j0 v (fun r hr => ?_)
      have hlt : j0 < r.length := h r hr j0 (List.mem_cons_self _ _)
      exact ⟨hlt, hna r hr _ (getD_mem_of_lt r j0 Cell.na hlt)⟩
    have iht := ih rs (fun r hr j hj => h r hr j (List.mem_cons_of_mem _ hj)) hna
    rw [fillNumSteps]
    cases hm : median (numVals (colCells rs j0)) with
    | none => exact iht
    | some m =>
      show fillNumSteps t (fillCol rs j0 (Cell.num m)) = rs
      rw [hfc]; exact iht

theorem fillTextGo_fst_eq_self (js : List Nat) :
    ∀ (rs : List (List Cell)), (∀ r ∈ rs, ∀ j ∈ js, j < r.length) →
    (∀ r ∈ rs, ∀ c ∈ r, c ≠ Cell.na) → (fillTextGo js rs).1 = rs := by
  induction js with
  | nil => intro rs _ _; rfl
  | cons j0 t ih =>
    intro rs h hna
    have hfc : ∀ v, fillCol rs j0 v = rs := by
      intro v
      refine fillCol_eq_self rs j0 v (fun r hr => ?_)
      have hlt : j0 < r.length := h r hr j0 (List.mem_cons_self _ _)
      exact ⟨hlt, hna r hr _ (getD_mem_of_lt r j0 Cell.na hlt)⟩
    have iht := ih rs (fun r hr j hj => h r hr j (List.mem_cons_of_mem _ hj)) hna
    rw [fillTextGo]
    cases hm : mode0 (strVals (colCells rs j0)) with
    | none => rfl
    | some v =>
      show (fillTextGo t (fillCol rs j0 (Cell.str v))).1 = rs
      rw [hfc]; exact iht

theorem dropKeyStep_eq_self (d : DF) (k : PyStr)
    (hna : ∀ r ∈ d.rows, ∀ c ∈ r, c ≠ Cell.na)
    (hlen : ∀ r ∈ d.rows, r.length = d.header.length) : dropKeyStep d k = d := by
  rw [dropKeyStep]
  cases hf : findColIdx d k with
  | none => rfl
  | some j =>
    have hj : j < d.header.length := (findColIdx_spec d k j hf).1
    have hfe : d.rows.filter (fun r => decide (r.getD j Cell.na ≠ Cell.na)) = d.rows := by
      rw [List.filter_eq_self]
      intro r hr
      simp only [decide_eq_true_eq]
      exact hna r hr _ (getD_mem_of_lt r j Cell.na (by rw [hlen r hr]; exact hj))
    show ({ header := d.header,
            rows := d.rows.filter (fun r => decide (r.getD j Cell.na ≠ Cell.na)) } : DF) = d
    rw [hfe]

theorem dropMissingKeys_eq_self (d : DF)
    (hna : ∀ r ∈ d.rows, ∀ c ∈ r, c ≠ Cell.na)
    (hlen : ∀ r ∈ d.rows, r.length = d.header.length) : dropMissingKeys d = d := by
  show (dropKeyStep (dropKeyStep d (pyStr "user_id")) (pyStr "movie_id")) = d
  rw [dropKeyStep_eq_self d _ hna hlen, dropKeyStep_eq_self d _ hna hlen]

/-! Dtype columns, cells, and congruence -/

theorem mem_dtypeIdxs (l : List (PyStr × Dtype)) (t : Dtype) (j : Nat) :
    j ∈ dtypeIdxs l t ↔ j < l.length ∧ (l.getD j hdrD).2 = t := by
  rw [dtypeIdxs, List.mem_filter, List.mem_range]
  simp

theorem dtypeIdxs_nodup (l : List (PyStr × Dtype)) (t : Dtype) :
    (dtypeIdxs l t).Nodup := (List.nodup_range _).filter _

theorem getD_snd_congr (l : List (PyStr × Dtype)) :
    ∀ (l2 : List (PyStr × Dtype)) (j : Nat), l.map Prod.snd = l2.map Prod.snd →
    (l.getD j hdrD).2 = (l2.getD j hdrD).2 := by
  induction l with
  | nil =>
    intro l2 j h
    cases l2 with
    | nil => rfl
    | cons b t => simp at h
  | cons a t ih =>
    intro l2 j h
    cases l2 with
    | nil => simp at h
    | cons b t2 =>
      simp only [List.map_cons, List.cons.injEq] at h
      cases j with
      | zero => simpa using h.1
      | succ j2 => simpa using ih t2 j2 h.2

theorem dtypeIdxs_congr (l l2 : List (PyStr × Dtype)) (t : Dtype)
    (h : l.map Prod.snd = l2.map Prod.snd) : dtypeIdxs l t = dtypeIdxs l2 t := by
  rw [dtypeIdxs, dtypeIdxs]
  have hlen : l.length = l2.length := by
    have h2 := congrArg List.length h
    simpa using h2
  rw [hlen]
  refine List.filter_congr (fun j _ => ?_)
  rw [getD_snd_congr l l2 j h]

theorem dtypeIdxs_nil_of_all (l : List (PyStr × Dtype)) (t : Dtype)
    (h : ∀ nd ∈ l, nd.2 ≠ t) : dtypeIdxs l t = [] := by
  rw [dtypeIdxs, List.filter_eq_nil_iff]
  intro j hj
  simp only [decide_eq_true_eq]
  exact h _ (getD_mem_of_lt l j hdrD (List.mem_range.mp hj))

theorem mem_colCells (rs : List (List Cell)) (j : Nat) (c : Cell) :
    c ∈ colCells rs j ↔ ∃ r ∈ rs, r.getD j Cell.na = c := by
  rw [colCells, List.mem_map]

theorem cellOk_num_cases (c : Cell) (h : cellOk Dtype.num c = true) :
    c = Cell.na ∨ ∃ q, c = Cell.num q := by
  cases c with
  | na => exact Or.inl rfl
  | num q => exact Or.inr ⟨q, rfl⟩
  | str s => simp [cellOk] at h
  | time t => simp [cellOk] at h

theorem cellOk_obj_cases (c : Cell) (h : cellOk Dtype.obj c = true) :
    c = Cell.na ∨ ∃ s, c = Cell.str s := by
  cases c with
  | na => exact Or.inl rfl
  | num q => simp [cellOk] at h
  | str s => exact Or.inr ⟨s, rfl⟩
  | time t => simp [cellOk] at h

theorem wf_of (df : DF)
    (h : ∀ r ∈ df.rows, r.length = df.header.length ∧
      ∀ j < df.header.length, cellOk (df.header.getD j hdrD).2 (r.getD j Cell.na) = true) :
    wf df = true := by
  rw [wf, List.all_eq_true]
  intro r hr
  rw [wfRow, Bool.and_eq_true, beq_iff_eq]
  obtain ⟨h1, h2⟩ := h r hr
  refine ⟨h1, ?_⟩
  rw [List.all_eq_true]
  exact fun j hj => h2 j (List.mem_range.mp hj)

theorem noMissing_of (df : DF) (h : ∀ r ∈ df.rows, ∀ c ∈ r, c ≠ Cell.na) :
    noMissing df = true := by
  rw [noMissing, List.all_eq_true]
  intro r hr
  rw [List.all_eq_true]
  intro c hc
  simpa using h r hr c hc

theorem DF_fields_eq (a b : DF) (h1 : a.header = b.header) (h2 : a.rows = b.rows) :
    a = b := by
  cases a
  cases b
  simp only at h1 h2
  rw [h1, h2]

/-! Absent key and date columns -/

theorem findColIdx_eq_none (d : DF) (k : PyStr) (h : ∀ nd ∈ d.header, nd.1 ≠ k) :
    findColIdx d k = none := findColIdxAux_eq_none k d.header h 0

theorem dropKeyStep_eq_of_absent (d : DF) (k : PyStr)
    (h : ∀ nd ∈ d.header, nd.1 ≠ k) : dropKeyStep d k = d := by
  rw [dropKeyStep, findColIdx_eq_none d k h]

theorem dropMissingKeys_eq_of_no_keys (d : DF)
    (h : ∀ nd ∈ d.header, nd.1 ∉ keyCols) : dropMissingKeys d = d := by
  show dropKeyStep (dropKeyStep d (pyStr "user_id")) (pyStr "movie_id") = d
  have h1 : dropKeyStep d (pyStr "user_id") = d := by
    refine dropKeyStep_eq_of_absent d _ (fun nd hnd he => ?_)
    exact h nd hnd (by rw [he]; decide)
  rw [h1]
  refine dropKeyStep_eq_of_absent d _ (fun nd hnd he => ?_)
  exact h nd hnd (by rw [he]; decide)

theorem firstDateIdx_eq_none (d : DF) (h : ∀ nd ∈ d.header, nd.1 ∉ dateCols) :
    firstDateIdx d = none := by
  have h1 : findColIdx d (pyStr "timestamp") = none := by
    refine findColIdx_eq_none d _ (fun nd hnd he => ?_)
    exact h nd hnd (by rw [he]; decide)
  have h2 : findColIdx d (pyStr "date") = none := by
    refine findColIdx_eq_none d _ (fun nd hnd he => ?_)
    exact h nd hnd (by rw [he]; decide)
  have h3 : findColIdx d (pyStr "watch_date") = none := by
    refine findColIdx_eq_none d _ (fun nd hnd he => ?_)
    exact h nd hnd (by rw [he]; decide)
  show List.findSome? (fun t => findColIdx d t) [pyStr "timestamp", pyStr "date", pyStr "watch_date"] = none
  rw [List.findSome?_cons, h1, List.findSome?_cons, h2, List.findSome?_cons, h3]
  rfl

/-! Renaming is idempotent -/

theorem renameCols_idem (df : DF) : renameCols (renameCols df) = renameCols df := by
  refine DF_fields_eq _ _ ?_ rfl
  show ((df.header.map (fun nd => (normName nd.1, nd.2))).map
      (fun nd => (normName nd.1, nd.2))) = df.header.map (fun nd => (normName nd.1, nd.2))
  rw [List.map_map]
  refine List.map_congr_left (fun nd _ => ?_)
  show (normName (normName nd.1), nd.2) = (normName nd.1, nd.2)
  rw [normName_idem]

theorem renameCols_dropDuplicates_comm (df : DF) :
    renameCols (dropDuplicates df) = dropDuplicates (renameCols df) := rfl

/-! Extracting the content of a successful variant-B run -/

theorem hii_clean_data_some (df o : DF) (h : hii.clean_data df = some o) :
    o.header = (hii.preText df).header ∧
    o.rows = (fillTextGo (dtypeIdxs (hii.preText df).header Dtype.obj)
        (hii.preText df).rows).1 ∧
    (fillTextGo (dtypeIdxs (hii.preText df).header Dtype.obj)
        (hii.preText df).rows).2 = true := by
  simp only [hii.clean_data] at h
  by_cases hb : (fillTextGo (dtypeIdxs (hii.preText df).header Dtype.obj)
      (hii.preText df).rows).2 = true
  · rw [if_pos hb] at h
    injection h with h
    rw [← h]
    exact ⟨rfl, rfl, hb⟩
  · rw [if_neg hb] at h
    exact absurd h (by simp)

theorem hii_clean_data_eq_some (df : DF)
    (hb : (fillTextGo (dtypeIdxs (hii.preText df).header Dtype.obj)
        (hii.preText df).rows).2 = true) :
    hii.clean_data df = some { hii.preText df with
      rows := (fillTextGo (dtypeIdxs (hii.preText df).header Dtype.obj)
        (hii.preText df).rows).1 } := by
  simp only [hii.clean_data]
  rw [if_pos hb]

/-! On inputs with no missing values both pipelines reduce to
rename plus duplicate removal -/

theorem byyy_clean_plain (df : DF) (hwf : wf df = true) (hnm : noMissing df = true)
    (hdate : firstDateIdx (renameCols df) = none) :
    byyy.clean_data df = dropDuplicates (renameCols df) := by
  have hmemD : ∀ r ∈ (dropDuplicates (renameCols df)).rows, r ∈ df.rows := by
    intro r hr
    exact (mem_dedupFirst df.rows r).mp hr
  have hlenD : ∀ r ∈ (dropDuplicates (renameCols df)).rows,
      r.length = df.header.length :=
    fun r hr => wf_row_length df hwf r (hmemD r hr)
  have hnaD : ∀ r ∈ (dropDuplicates (renameCols df)).rows, ∀ c ∈ r, c ≠ Cell.na :=
    fun r hr c hc => noMissing_cell df hnm r (hmemD r hr) c hc
  have hhlen : (dropDuplicates (renameCols df)).header.length = df.header.length := by
    show (df.header.map (fun nd => (normName nd.1, nd.2))).length = df.header.length
    rw [List.length_map]
  have hfill : fillNumeric (dropDuplicates (renameCols df))
      = dropDuplicates (renameCols df) := by
    have hX : fillNumSteps
        (dtypeIdxs (dropDuplicates (renameCols df)).header Dtype.num)
        (dropDuplicates (renameCols df)).rows
        = (dropDuplicates (renameCols df)).rows := by
      refine fillNumSteps_eq_self _ _ (fun r hr j hj => ?_) hnaD
      rw [hlenD r hr, ← hhlen]
      exact ((mem_dtypeIdxs _ _ _).mp hj).1
    refine DF_fields_eq _ _ rfl ?_
    exact hX
  have hdrop : dropMissingKeys (dropDuplicates (renameCols df))
      = dropDuplicates (renameCols df) := by
    refine dropMissingKeys_eq_self _ hnaD (fun r hr => ?_)
    rw [hlenD r hr, hhlen]
  have hparse : parseDates (dropDuplicates (renameCols df))
      = dropDuplicates (renameCols df) := by
    refine parseDates_none _ ?_
    rw [firstDateIdx_congr (dropDuplicates (renameCols df)) (renameCols df) rfl]
    exact hdate
  show parseDates (dropMissingKeys (fillNumeric (dropDuplicates (renameCols df))))
      = dropDuplicates (renameCols df)
  rw [hfill, hdrop, hparse]

theorem hii_preText_plain (df : DF) (hwf : wf df = true) (hnm : noMissing df = true) :
    hii.preText df = dropDuplicates (renameCols df) := by
  have hmemD : ∀ r ∈ (dropDuplicates (renameCols df)).rows, r ∈ df.rows := by
    intro r hr
    exact (mem_dedupFirst df.rows r).mp hr
  have hlenD : ∀ r ∈ (dropDuplicates (renameCols df)).rows,
      r.length = df.header.length :=
    fun r hr => wf_row_length df hwf r (hmemD r hr)
  have hnaD : ∀ r ∈ (dropDuplicates (renameCols df)).rows, ∀ c ∈ r, c ≠ Cell.na :=
    fun r hr c hc => noMissing_cell df hnm r (hmemD r hr) c hc
  have hhlen : (dropDuplicates (renameCols df)).header.length = df.header.length := by
    show (df.header.map (fun nd => (normName nd.1, nd.2))).length = df.header.length
    rw [List.length_map]
  show fillNumeric (renameCols (dropDuplicates df)) = dropDuplicates (renameCols df)
  rw [renameCols_dropDuplicates_comm]
  refine DF_fields_eq _ _ rfl ?_
  show fillNumSteps (dtypeIdxs (dropDuplicates (renameCols df)).header Dtype.num)
      (dropDuplicates (renameCols df)).rows = (dropDuplicates (renameCols df)).rows
  refine fillNumSteps_eq_self _ _ (fun r hr j hj => ?_) hnaD
  rw [hlenD r hr, ← hhlen]
  exact ((mem_dtypeIdxs _ _ _).mp hj).1

theorem hii_clean_plain (df : DF) (hwf : wf df = true) (hnm : noMissing df = true)
    (o : DF) (h : hii.clean_data df = some o) :
    o = dropDuplicates (renameCols df) := by
  obtain ⟨hh, hrw, _⟩ := hii_clean_data_some df o h
  have hp := hii_preText_plain df hwf hnm
  have hmemD : ∀ r ∈ (hii.preText df).rows, r ∈ df.rows := by
    intro r hr
    rw [hp] at hr
    exact (mem_dedupFirst df.rows r).mp hr
  have hlenD : ∀ r ∈ (hii.preText df).rows, r.length = df.header.length :=
    fun r hr => wf_row_length df hwf r (hmemD r hr)
  have hnaD : ∀ r ∈ (hii.preText df).rows, ∀ c ∈ r, c ≠ Cell.na :=
    fun r hr c hc => noMissing_cell df hnm r (hmemD r hr) c hc
  have hhlen : (hii.preText df).header.length = df.header.length := by
    rw [hp]
    show (df.header.map (fun nd => (normName nd.1, nd.2))).length = df.header.length
    rw [List.length_map]
  have hgo : (fillTextGo (dtypeIdxs (hii.preText df).header Dtype.obj)
      (hii.preText df).rows).1 = (hii.preText df).rows := by
    refine fillTextGo_fst_eq_self _ _ (fun r hr j hj => ?_) hnaD
    rw [hlenD r hr, ← hhlen]
    exact ((mem_dtypeIdxs _ _ _).mp hj).1
  refine DF_fields_eq _ _ ?_ ?_
  · rw [hh, hp]
  · rw [hrw, hgo, hp]

/-! What the imputation loops guarantee -/

theorem fillTextGo_success (js : List Nat) :
    ∀ rs, js.Nodup → (∀ j ∈ js, ∃ s, Cell.str s ∈ colCells rs j) →
    (fillTextGo js rs).2 = true := by
  induction js with
  | nil => intro rs _ _; rfl
  | cons j0 t ih =>
    intro rs hnd hp
    obtain ⟨s, hs⟩ := hp j0 (List.mem_cons_self _ _)
    have hne : strVals (colCells rs j0) ≠ [] := by
      intro he
      have hmem : s ∈ strVals (colCells rs j0) := by
        rw [strVals, List.mem_filterMap]
        exact ⟨Cell.str s, hs, rfl⟩
      rw [he] at hmem
      exact List.not_mem_nil _ hmem
    obtain ⟨v, hv⟩ := mode0_isSome _ hne
    rw [fillTextGo, hv]
    show (fillTextGo t (fillCol rs j0 (Cell.str v))).2 = true
    refine ih _ (List.nodup_cons.mp hnd).2 (fun j hj => ?_)
    have hne2 : j0 ≠ j := fun he => (List.nodup_cons.mp hnd).1 (he ▸ hj)
    rw [colCells_fillCol_ne rs j0 j _ hne2]
    exact hp j (List.mem_cons_of_mem _ hj)

theorem fillCol_all_num (rs : List (List Cell)) (j : Nat) (m : ℚ)
    (hlen : ∀ r ∈ rs, j < r.length)
    (hty : ∀ c ∈ colCells rs j, c = Cell.na ∨ ∃ q, c = Cell.num q) :
    ∀ c ∈ colCells (fillCol rs j (Cell.num m)) j, ∃ q, c = Cell.num q := by
  intro c hc
  rw [mem_colCells] at hc
  obtain ⟨r2, hr2, rfl⟩ := hc
  rw [fillCol, List.mem_map] at hr2
  obtain ⟨r, hr, rfl⟩ := hr2
  rw [getD_set_self _ _ _ _ (hlen r hr)]
  rcases hty (r.getD j Cell.na) ((mem_colCells rs j _).mpr ⟨r, hr, rfl⟩) with hna | ⟨q, hq⟩
  · rw [hna]; exact ⟨m, rfl⟩
  · rw [hq]; exact ⟨q, rfl⟩

theorem fillNumSteps_all_num (js : List Nat) :
    ∀ rs j, js.Nodup → j ∈ js →
    (∀ r ∈ rs, j < r.length) →
    (∃ q, Cell.num q ∈ colCells rs j) →
    (∀ c ∈ colCells rs j, c = Cell.na ∨ ∃ q, c = Cell.num q) →
    ∀ c ∈ colCells (fillNumSteps js rs) j, ∃ q, c = Cell.num q := by
  induction js with
  | nil => intro rs j _ hj; simp at hj
  | cons j0 t ih =>
    intro rs j hnd hj hlen hex hty
    by_cases hjj : j = j0
    · subst hjj
      have hne : numVals (colCells rs j) ≠ [] := by
        obtain ⟨q, hq⟩ := hex
        intro he
        have hmem : q ∈ numVals (colCells rs j) := by
          rw [numVals, List.mem_filterMap]
          exact ⟨Cell.num q, hq, rfl⟩
        rw [he] at hmem
        exact List.not_mem_nil _ hmem
      obtain ⟨m, hm⟩ := median_isSome _ hne
      rw [fillNumSteps, hm]
      show ∀ c ∈ colCells (fillNumSteps t (fillCol rs j (Cell.num m))) j,
        ∃ q, c = Cell.num q
      have hnotin : j ∉ t := (List.nodup_cons.mp hnd).1
      intro c hc
      rw [colCells_fillNumSteps_ne t _ j hnotin] at hc
      exact fillCol_all_num rs j m hlen hty c hc
    · have hjt : j ∈ t := by
        rcases List.mem_cons.mp hj with h | h
        · exact absurd h hjj
        · exact h
      have hne0 : j0 ≠ j := fun he => hjj he.symm
      rw [fillNumSteps]
      cases hm : median (numVals (colCells rs j0)) with
      | none => exact ih rs j (List.nodup_cons.mp hnd).2 hjt hlen hex hty
      | some m =>
        show ∀ c ∈ colCells (fillNumSteps t (fillCol rs j0 (Cell.num m))) j,
          ∃ q, c = Cell.num q
        refine ih _ j (List.nodup_cons.mp hnd).2 hjt ?_ ?_ ?_
        · intro r hr
          rw [fillCol, List.mem_map] at hr
          obtain ⟨r0, hr0, rfl⟩ := hr
          rw [List.length_set]
          exact hlen r0 hr0
        · rw [colCells_fillCol_ne rs j0 j _ hne0]; exact hex
        · rw [colCells_fillCol_ne rs j0 j _ hne0]; exact hty

theorem fillTextGo_noNa (js : List Nat) :
    ∀ rs, js.Nodup → (∀ r ∈ rs, ∀ j ∈ js, j < r.length) →
    (fillTextGo js rs).2 = true →
    ∀ j ∈ js, ∀ c ∈ colCells ((fillTextGo js rs).1) j, c ≠ Cell.na := by
  induction js with
  | nil => intro rs _ _ _ j hj; simp at hj
  | cons j0 t ih =>
    intro rs hnd hlen hsucc j hj
    cases hm : mode0 (strVals (colCells rs j0)) with
    | none =>
      rw [fillTextGo, hm] at hsucc
      simp at hsucc
    | some v =>
      rw [fillTextGo, hm] at hsucc ⊢
      have hsucc2 : (fillTextGo t (fillCol rs j0 (Cell.str v))).2 = true := hsucc
      have hlen2 : ∀ r ∈ fillCol rs j0 (Cell.str v), ∀ j2 ∈ t, j2 < r.length := by
        intro r hr j2 hj2
        rw [fillCol, List.mem_map] at hr
        obtain ⟨r0, hr0, rfl⟩ := hr
        rw [List.length_set]
        exact hlen r0 hr0 j2 (List.mem_cons_of_mem _ hj2)
      show ∀ c ∈ colCells ((fillTextGo t (fillCol rs j0 (Cell.str v))).1) j, c ≠ Cell.na
      by_cases hjj : j = j0
      · subst hjj
        have hnotin : j ∉ t := (List.nodup_cons.mp hnd).1
        intro c hc
        rw [colCells_fillTextGo_ne t _ j hnotin] at hc
        rw [mem_colCells] at hc
        obtain ⟨r2, hr2, rfl⟩ := hc
        rw [fillCol, List.mem_map] at hr2
        obtain ⟨r, hr, rfl⟩ := hr2
        rw [getD_set_self _ _ _ _ (hlen r hr j (List.mem_cons_self _ _))]
        cases r.getD j Cell.na <;> simp
      · have hjt : j ∈ t := by
          rcases List.mem_cons.mp hj with h | h
          · exact absurd h hjj
          · exact h
        exact ih _ (List.nodup_cons.mp hnd).2 hlen2 hsucc2 j hjt

/-- Claim C7: for every original column name, both variants produce the
normalized name obtained by trimming leading/trailing whitespace,
lowercasing, and replacing the (then necessarily internal) spaces with
underscores — the output header names are exactly `normName` of the input
names — and in particular `" Movie ID "` maps to `"movie_id"`. -/
theorem clean_data_normalizes_column_names :
    (∀ df : DF, (byyy.clean_data df).header.map Prod.fst
        = df.header.map (fun nd => normName nd.1)) ∧
    (∀ df o, hii.clean_data df = some o →
        o.header.map Prod.fst = df.header.map (fun nd => normName nd.1)) ∧
    normName (pyStr " Movie ID ") = pyStr "movie_id" := by
  refine ⟨fun df => ?_, fun df o h => ?_, by decide⟩
  · rw [byyy.clean_data, byyy.preParse, names_parseDates, header_dropMissingKeys,
      header_fillNumeric, header_dropDuplicates, names_renameCols]
  · rw [(hii_clean_data_some df o h).1]
    show (fillNumeric (renameCols (dropDuplicates df))).header.map Prod.fst = _
    rw [header_fillNumeric, names_renameCols, header_dropDuplicates]

theorem clean_data_normalizes_column_names_witness :
    (byyy.clean_data exC7).header.map Prod.fst
        = exC7.header.map (fun nd => normName nd.1) ∧
    hii.clean_data exC7 = some exC7out ∧
    exC7out.header.map Prod.fst = exC7.header.map (fun nd => normName nd.1) :=
  ⟨clean_data_normalizes_column_names.1 exC7, by decide,
    clean_data_normalizes_column_names.2.1 exC7 exC7out (by decide)⟩

/-- Claim C6: variant A parses exactly the first existing column among
`timestamp`, `date`, `watch_date` (in that priority order) after
normalization; the parsed column's dtype becomes datetime, every unparsable
string coerces to missing rather than raising, the row count is preserved
and every other cell of each row is unchanged.  When no such column exists,
the date step does nothing. -/
theorem byyy_clean_data_date_coercion (df : DF) :
    (∀ j, firstDateIdx (byyy.preParse df) = some j →
      (byyy.clean_data df).rows = (byyy.preParse df).rows.map
          (fun r => r.set j (toDatetimeCell (r.getD j Cell.na))) ∧
      (byyy.clean_data df).header = (byyy.preParse df).header.set j
          (((byyy.preParse df).header.getD j hdrD).1, Dtype.dt) ∧
      (byyy.clean_data df).rows.length = (byyy.preParse df).rows.length ∧
      (∀ r ∈ (byyy.preParse df).rows, ∀ i, i ≠ j →
        (r.set j (toDatetimeCell (r.getD j Cell.na))).getD i Cell.na
          = r.getD i Cell.na)) ∧
    (firstDateIdx (byyy.preParse df) = none →
      byyy.clean_data df = byyy.preParse df) ∧
    (∀ s, parseIso s = none → toDatetimeCell (Cell.str s) = Cell.na) ∧
    (∀ j, findColIdx (byyy.preParse df) (pyStr "timestamp") = some j →
      firstDateIdx (byyy.preParse df) = some j) ∧
    (findColIdx (byyy.preParse df) (pyStr "timestamp") = none →
      ∀ j, findColIdx (byyy.preParse df) (pyStr "date") = some j →
      firstDateIdx (byyy.preParse df) = some j) ∧
    (findColIdx (byyy.preParse df) (pyStr "timestamp") = none →
      findColIdx (byyy.preParse df) (pyStr "date") = none →
      ∀ j, findColIdx (byyy.preParse df) (pyStr "watch_date") = some j →
      firstDateIdx (byyy.preParse df) = some j) := by
  refine ⟨fun j hj => ⟨?_, ?_, ?_, ?_⟩, fun h => ?_, fun s hs => ?_,
    fun j h1 => ?_, fun h1 j h2 => ?_, fun h1 h2 j h3 => ?_⟩
  · rw [byyy.clean_data]; exact parseDates_some_rows _ j hj
  · rw [byyy.clean_data]; exact parseDates_some_header _ j hj
  · rw [byyy.clean_data, parseDates_some_rows _ j hj, List.length_map]
  · intro r _ i hi
    exact getD_set_ne _ _ _ _ _ (fun he => hi he.symm)
  · rw [byyy.clean_data]; exact parseDates_none _ h
  · simp only [toDatetimeCell, hs]
  · show List.findSome? (fun t => findColIdx (byyy.preParse df) t)
      [pyStr "timestamp", pyStr "date", pyStr "watch_date"] = some j
    rw [List.findSome?_cons, h1]
  · show List.findSome? (fun t => findColIdx (byyy.preParse df) t)
      [pyStr "timestamp", pyStr "date", pyStr "watch_date"] = some j
    rw [List.findSome?_cons, h1, List.findSome?_cons, h2]
  · show List.findSome? (fun t => findColIdx (byyy.preParse df) t)
      [pyStr "timestamp", pyStr "date", pyStr "watch_date"] = some j
    rw [List.findSome?_cons, h1, List.findSome?_cons, h2, List.findSome?_cons, h3]

theorem byyy_clean_data_date_coercion_witness :
    (byyy.clean_data exC6).rows = (byyy.preParse exC6).rows.map
        (fun r => r.set 1 (toDatetimeCell (r.getD 1 Cell.na))) ∧
    parseIso (pyStr "not-a-date") = none ∧
    toDatetimeCell (Cell.str (pyStr "not-a-date")) = Cell.na ∧
    (byyy.clean_data exC6).rows =
      [[Cell.num 1, Cell.time 20200102, Cell.str (pyStr "x")],
       [Cell.num 2, Cell.na, Cell.str (pyStr "y")]] ∧
    (byyy.clean_data exC6).header =
      [(pyStr "movie_id", Dtype.num), (pyStr "timestamp", Dtype.dt),
       (pyStr "date", Dtype.obj)] :=
  ⟨((byyy_clean_data_date_coercion exC6).1 1 (by decide)).1, by decide,
   (byyy_clean_data_date_coercion exC6).2.2.1 (pyStr "not-a-date") (by decide),
   by decide, by decide⟩

/-- Claim C10: on an input all of whose columns are numeric and none of
whose normalized column names is `user_id`, `movie_id`, `timestamp`,
`date` or `watch_date`, the two `clean_data` implementations agree:
renaming and duplicate-dropping commute on their shared pipeline. -/
theorem variants_agree_on_plain_numeric (df : DF)
    (hnum : ∀ nd ∈ df.header, nd.2 = Dtype.num)
    (hkey : ∀ nd ∈ df.header, normName nd.1 ∉ keyCols)
    (hdate : ∀ nd ∈ df.header, normName nd.1 ∉ dateCols) :
    hii.clean_data df = some (byyy.clean_data df) := by
  have hmem : ∀ nd ∈ (fillNumeric (dropDuplicates (renameCols df))).header,
      ∃ nd0 ∈ df.header, nd = (normName nd0.1, nd0.2) := by
    intro nd hnd
    have hnd2 : nd ∈ df.header.map (fun nd => (normName nd.1, nd.2)) := hnd
    rw [List.mem_map] at hnd2
    obtain ⟨nd0, h0, rfl⟩ := hnd2
    exact ⟨nd0, h0, rfl⟩
  have hbyyy : byyy.clean_data df = fillNumeric (dropDuplicates (renameCols df)) := by
    rw [byyy.clean_data, byyy.preParse]
    have hdropk : dropMissingKeys (fillNumeric (dropDuplicates (renameCols df)))
        = fillNumeric (dropDuplicates (renameCols df)) := by
      refine dropMissingKeys_eq_of_no_keys _ (fun nd hnd => ?_)
      obtain ⟨nd0, h0, rfl⟩ := hmem nd hnd
      exact hkey nd0 h0
    rw [hdropk]
    refine parseDates_none _ ?_
    refine firstDateIdx_eq_none _ (fun nd hnd => ?_)
    obtain ⟨nd0, h0, rfl⟩ := hmem nd hnd
    exact hdate nd0 h0
  have hpre : hii.preText df = fillNumeric (dropDuplicates (renameCols df)) := by
    rw [hii.preText, renameCols_dropDuplicates_comm]
  have hobj : dtypeIdxs (hii.preText df).header Dtype.obj = [] := by
    rw [hpre]
    refine dtypeIdxs_nil_of_all _ _ (fun nd hnd => ?_)
    obtain ⟨nd0, h0, rfl⟩ := hmem nd hnd
    show nd0.2 ≠ Dtype.obj
    rw [hnum nd0 h0]
    decide
  have hflag : (fillTextGo (dtypeIdxs (hii.preText df).header Dtype.obj)
      (hii.preText df).rows).2 = true := by
    rw [hobj]
    rfl
  rw [hii_clean_data_eq_some df hflag, hbyyy]
  congr 1
  refine DF_fields_eq _ _ ?_ ?_
  · rw [hpre]
  · show (fillTextGo (dtypeIdxs (hii.preText df).header Dtype.obj)
      (hii.preText df).rows).1 = _
    rw [hobj, hpre]
    rfl

theorem variants_agree_on_plain_numeric_witness :
    hii.clean_data exC10 = some (byyy.clean_data exC10) :=
  variants_agree_on_plain_numeric exC10 (by decide) (by decide) (by decide)

/-- Claim C1: in variant A, whenever a column named `user_id` or `movie_id`
exists after normalization, no row whose entry in that column is missing
occurs in the output (rows surviving to the output all carry a non-missing
identifier; a numeric identifier column is median-imputed by the earlier
fill step, and the `notna` filter drops every row still missing there). -/
theorem byyy_no_row_with_missing_identifier (df : DF) (k : PyStr)
    (hk : k ∈ keyCols) (j : Nat)
    (hj : findColIdx (byyy.clean_data df) k = some j)
    (r : List Cell) (hna : r.getD j Cell.na = Cell.na) :
    r ∉ (byyy.clean_data df).rows := by
  intro hmem
  have hnames : (byyy.clean_data df).header.map Prod.fst
      = (byyy.preParse df).header.map Prod.fst := by
    rw [byyy.clean_data]
    exact names_parseDates _
  have hj2 : findColIdx (byyy.preParse df) k = some j := by
    rw [← findColIdx_congr _ _ k hnames]
    exact hj
  have hj3 : findColIdx (fillNumeric (dropDuplicates (renameCols df))) k = some j := by
    rw [findColIdx_congr _ (byyy.preParse df) k]
    · exact hj2
    · rw [byyy.preParse, header_dropMissingKeys]
  have hQ : ∀ r2 ∈ (byyy.preParse df).rows, r2.getD j Cell.na ≠ Cell.na :=
    fun r2 hr2 => foldl_dropKeyStep_noNa keyCols _ k hk j hj3 r2 hr2
  cases hfd : firstDateIdx (byyy.preParse df) with
  | none =>
    rw [byyy.clean_data, parseDates_none _ hfd] at hmem
    exact hQ r hmem hna
  | some jd =>
    rw [byyy.clean_data, parseDates_some_rows _ jd hfd] at hmem
    rw [List.mem_map] at hmem
    obtain ⟨r0, hr0, rfl⟩ := hmem
    have hjd_name : ((byyy.preParse df).header.getD jd hdrD).1 ∈ dateCols :=
      firstDateIdx_some_name _ jd hfd
    have hj_name : ((byyy.preParse df).header.getD j hdrD).1 = k :=
      (findColIdx_spec _ k j hj2).2
    have hkd : k ∉ dateCols := by
      rcases List.mem_cons.mp hk with rfl | hk2
      · decide
      · rcases List.mem_cons.mp hk2 with rfl | hk3
        · decide
        · simp at hk3
    have hne : jd ≠ j := by
      intro he
      subst he
      rw [hj_name] at hjd_name
      exact hkd hjd_name
    rw [getD_set_ne _ _ _ _ _ hne] at hna
    exact hQ r0 hr0 hna

theorem byyy_no_row_with_missing_identifier_witness :
    (pyStr "user_id") ∈ keyCols ∧
    findColIdx (byyy.clean_data exC1) (pyStr "user_id") = some 0 ∧
    ([Cell.na] : List Cell).getD 0 Cell.na = Cell.na ∧
    [Cell.na] ∉ (byyy.clean_data exC1).rows :=
  ⟨by decide, by decide, rfl,
    byyy_no_row_with_missing_identifier exC1 (pyStr "user_id") (by decide) 0
      (by decide) [Cell.na] rfl⟩

/-- Counterexample to claim C2 as stated: variant B is not total on parsed
tabular data.  A header-only CSV parses to a zero-row frame whose columns
have object dtype; `df[col].mode()` is then empty and `mode()[0]` raises a
`KeyError` (modelled as `none`).  The same happens for an all-missing
object column. -/
theorem hii_clean_data_fails_on_empty_text_column :
    hii.clean_data exC2empty = none ∧
    hii.clean_data ⟨[(pyStr "genre", Dtype.obj)], [[Cell.na]]⟩ = none := by
  exact ⟨by decide, by decide⟩

/-- Claim C2 (amended): the normalizer raises no error provided every text
column holds at least one non-missing value (true of every parsed CSV with
at least one data row in each object column); variant A raises no error on
any input.  Variant B raises a `KeyError` when some object column is
entirely missing, e.g. on a header-only CSV. -/
theorem clean_data_total_when_text_columns_inhabited (df : DF)
    (h : parsedCSV df = true) : (hii.clean_data df).isSome = true := by
  rw [parsedCSV, Bool.and_eq_true] at h
  obtain ⟨hwf, hobj⟩ := h
  rw [List.all_eq_true] at hobj
  have hjs : dtypeIdxs (hii.preText df).header Dtype.obj
      = dtypeIdxs df.header Dtype.obj := by
    refine dtypeIdxs_congr _ _ _ ?_
    show (df.header.map (fun nd => (normName nd.1, nd.2))).map Prod.snd
      = df.header.map Prod.snd
    rw [List.map_map]
    rfl
  have hnumR : dtypeIdxs (df.header.map (fun nd => (normName nd.1, nd.2))) Dtype.num
      = dtypeIdxs df.header Dtype.num := by
    refine dtypeIdxs_congr _ _ _ ?_
    rw [List.map_map]
    rfl
  have hrowsPre : (hii.preText df).rows
      = fillNumSteps (dtypeIdxs df.header Dtype.num) (dedupFirst df.rows) := by
    show fillNumSteps
        (dtypeIdxs (df.header.map (fun nd => (normName nd.1, nd.2))) Dtype.num)
        (dedupFirst df.rows)
      = fillNumSteps (dtypeIdxs df.header Dtype.num) (dedupFirst df.rows)
    rw [hnumR]
  have hpres : ∀ j ∈ dtypeIdxs df.header Dtype.obj,
      ∃ s, Cell.str s ∈ colCells (hii.preText df).rows j := by
    intro j hj
    obtain ⟨hjlt, hjty⟩ := (mem_dtypeIdxs _ _ _).mp hj
    have h2 := hobj j (List.mem_range.mpr hjlt)
    rw [Bool.or_eq_true] at h2
    rcases h2 with h2 | h2
    · exfalso
      rw [Bool.not_eq_true', beq_eq_false_iff_ne] at h2
      exact h2 hjty
    · rw [List.any_eq_true] at h2
      obtain ⟨r, hr, hrne⟩ := h2
      rw [bne_iff_ne] at hrne
      have hok := wf_cellOk df hwf r hr j hjlt
      rw [hjty] at hok
      rcases cellOk_obj_cases _ hok with hnac | ⟨s, hs⟩
      · exact absurd hnac hrne
      · refine ⟨s, ?_⟩
        have hjnotnum : j ∉ dtypeIdxs df.header Dtype.num := by
          intro hc
          have h3 := ((mem_dtypeIdxs _ _ _).mp hc).2
          exact Dtype.noConfusion (hjty.symm.trans h3)
        rw [hrowsPre, colCells_fillNumSteps_ne _ _ _ hjnotnum, mem_colCells]
        exact ⟨r, (mem_dedupFirst _ _).mpr hr, hs⟩
  have hflag := fillTextGo_success (dtypeIdxs (hii.preText df).header Dtype.obj)
    (hii.preText df).rows (dtypeIdxs_nodup _ _) (by rw [hjs]; exact hpres)
  rw [hii_clean_data_eq_some df hflag]
  rfl

theorem clean_data_total_when_text_columns_inhabited_witness :
    parsedCSV exC2 = true ∧ (hii.clean_data exC2).isSome = true :=
  ⟨by decide, clean_data_total_when_text_columns_inhabited exC2 (by decide)⟩

/-- Counterexample to claim C3 as stated: an entirely missing numeric
column has no median (`fillna(NaN)` is a no-op), so a missing entry
survives normalization in both variants. -/
theorem numeric_missing_survives_in_all_missing_column :
    (byyy.clean_data exC3all).header = [(pyStr "rating", Dtype.num)] ∧
    (byyy.clean_data exC3all).rows = [[Cell.na]] ∧
    hii.clean_data exC3all = some ⟨[(pyStr "rating", Dtype.num)], [[Cell.na]]⟩ := by
  exact ⟨by decide, by decide, by decide⟩

/-- Claim C3 (amended): after normalization, every numeric column holding
at least one non-missing value at clean time contains no missing entries
(each missing entry was replaced by the median of the column's non-missing
values, computed after duplicate removal); e.g. the numeric column
[1, 3, missing, 5] becomes [1, 3, 3, 5].  A numeric column with no
non-missing values keeps its missing entries. -/
theorem numeric_columns_filled_after_clean :
    (∀ df : DF, wf df = true → ∀ j ∈ dtypeIdxs df.header Dtype.num,
      (∃ q, Cell.num q ∈ colCells df.rows j) →
      (∀ r ∈ (byyy.clean_data df).rows, r.getD j Cell.na ≠ Cell.na) ∧
      (∀ o, hii.clean_data df = some o →
        ∀ r ∈ o.rows, r.getD j Cell.na ≠ Cell.na)) ∧
    (byyy.clean_data exC3med).rows
      = [[Cell.num 1], [Cell.num 3], [Cell.num 3], [Cell.num 5]] := by
  refine ⟨fun df hwf j hj hex => ?_, by decide⟩
  obtain ⟨hjlt, hjty⟩ := (mem_dtypeIdxs _ _ _).mp hj
  have hmemD : ∀ r ∈ dedupFirst df.rows, r ∈ df.rows :=
    fun r hr => (mem_dedupFirst df.rows r).mp hr
  have hlenD : ∀ r ∈ dedupFirst df.rows, j < r.length := by
    intro r hr
    rw [wf_row_length df hwf r (hmemD r hr)]
    exact hjlt
  have hexD : ∃ q, Cell.num q ∈ colCells (dedupFirst df.rows) j := by
    obtain ⟨q, hq⟩ := hex
    rw [mem_colCells] at hq
    obtain ⟨r, hr, hrq⟩ := hq
    exact ⟨q, (mem_colCells _ _ _).mpr ⟨r, (mem_dedupFirst _ _).mpr hr, hrq⟩⟩
  have htyD : ∀ c ∈ colCells (dedupFirst df.rows) j,
      c = Cell.na ∨ ∃ q, c = Cell.num q := by
    intro c hc
    rw [mem_colCells] at hc
    obtain ⟨r, hr, rfl⟩ := hc
    have hok := wf_cellOk df hwf r (hmemD r hr) j hjlt
    rw [hjty] at hok
    exact cellOk_num_cases _ hok
  have hnumR : dtypeIdxs (df.header.map (fun nd => (normName nd.1, nd.2))) Dtype.num
      = dtypeIdxs df.header Dtype.num := by
    refine dtypeIdxs_congr _ _ _ ?_
    rw [List.map_map]
    rfl
  have hall : ∀ c ∈ colCells (fillNumSteps (dtypeIdxs df.header Dtype.num)
      (dedupFirst df.rows)) j, ∃ q, c = Cell.num q :=
    fillNumSteps_all_num _ _ j (dtypeIdxs_nodup _ _) hj hlenD hexD htyD
  have hProws : (fillNumeric (dropDuplicates (renameCols df))).rows
      = fillNumSteps (dtypeIdxs df.header Dtype.num) (dedupFirst df.rows) := by
    show fillNumSteps
        (dtypeIdxs (df.header.map (fun nd => (normName nd.1, nd.2))) Dtype.num)
        (dedupFirst df.rows)
      = fillNumSteps (dtypeIdxs df.header Dtype.num) (dedupFirst df.rows)
    rw [hnumR]
  have hPnum : ∀ r2 ∈ (byyy.preParse df).rows, ∃ q, r2.getD j Cell.na = Cell.num q := by
    intro r2 hr2
    have hr2P : r2 ∈ (fillNumeric (dropDuplicates (renameCols df))).rows :=
      (rows_foldl_dropKeyStep_sublist keyCols _).mem hr2
    rw [hProws] at hr2P
    exact hall _ ((mem_colCells _ _ _).mpr ⟨r2, hr2P, rfl⟩)
  have hPlen : ∀ r2 ∈ (byyy.preParse df).rows, j < r2.length := by
    intro r2 hr2
    have hr2P : r2 ∈ (fillNumeric (dropDuplicates (renameCols df))).rows :=
      (rows_foldl_dropKeyStep_sublist keyCols _).mem hr2
    rw [hProws] at hr2P
    have hl := rowsLen_fillNumSteps (dtypeIdxs df.header Dtype.num) df.header.length
      (dedupFirst df.rows) (fun r3 hr3 => wf_row_length df hwf r3 (hmemD r3 hr3)) r2 hr2P
    rw [hl]
    exact hjlt
  constructor
  · intro r hr
    cases hfd : firstDateIdx (byyy.preParse df) with
    | none =>
      rw [byyy.clean_data, parseDates_none _ hfd] at hr
      obtain ⟨q, hq⟩ := hPnum r hr
      rw [hq]
      simp
    | some jd =>
      rw [byyy.clean_data, parseDates_some_rows _ jd hfd] at hr
      rw [List.mem_map] at hr
      obtain ⟨r0, hr0, rfl⟩ := hr
      by_cases hjd : jd = j
      · subst hjd
        rw [getD_set_self _ _ _ _ (hPlen r0 hr0)]
        obtain ⟨q, hq⟩ := hPnum r0 hr0
        rw [hq]
        simp [toDatetimeCell]
      · rw [getD_set_ne _ _ _ _ _ hjd]
        obtain ⟨q, hq⟩ := hPnum r0 hr0
        rw [hq]
        simp
  · intro o ho r hr
    obtain ⟨hh, hrw, hflag⟩ := hii_clean_data_some df o ho
    have hjnotobj : j ∉ dtypeIdxs (hii.preText df).header Dtype.obj := by
      intro hc
      have h2 := ((mem_dtypeIdxs _ _ _).mp hc).2
      have h3 : ((hii.preText df).header.getD j hdrD).2 = (df.header.getD j hdrD).2 := by
        refine getD_snd_congr _ _ j ?_
        show (df.header.map (fun nd => (normName nd.1, nd.2))).map Prod.snd
          = df.header.map Prod.snd
        rw [List.map_map]
        rfl
      rw [h3, hjty] at h2
      exact Dtype.noConfusion h2
    rw [hrw] at hr
    have hrowsPre : (hii.preText df).rows
        = fillNumSteps (dtypeIdxs df.header Dtype.num) (dedupFirst df.rows) := by
      show fillNumSteps
          (dtypeIdxs (df.header.map (fun nd => (normName nd.1, nd.2))) Dtype.num)
          (dedupFirst df.rows)
        = fillNumSteps (dtypeIdxs df.header Dtype.num) (dedupFirst df.rows)
      rw [hnumR]
    have hcell : r.getD j Cell.na ∈ colCells (hii.preText df).rows j := by
      rw [← colCells_fillTextGo_ne _ _ _ hjnotobj]
      exact (mem_colCells _ _ _).mpr ⟨r, hr, rfl⟩
    rw [hrowsPre] at hcell
    obtain ⟨q, hq⟩ := hall _ hcell
    rw [hq]
    simp

theorem numeric_columns_filled_after_clean_witness :
    ([Cell.num 3] : List Cell).getD 0 Cell.na ≠ Cell.na :=
  (numeric_columns_filled_after_clean.1 exC3med (by decide) 0 (by decide)
    ⟨1, by decide⟩).1 [Cell.num 3] (by decide)

/-- Counterexample to claim C5's tie-break as stated: on the text column
["b","b","a","a",missing], the first-encountered most-frequent value is
"b", but pandas `mode()` returns candidates in ascending sorted order, so
`mode()[0]` imputes "a". -/
theorem hii_mode_tie_break_not_first_encountered :
    hii.clean_data exC5 = some exC5out ∧
    modeFirstEncountered (strVals (colCells (hii.preText exC5).rows 1))
      = some (pyStr "b") ∧
    mode0 (strVals (colCells (hii.preText exC5).rows 1)) = some (pyStr "a") ∧
    pyStr "a" ≠ pyStr "b" := by
  exact ⟨by decide, by decide, by decide, by decide⟩

/-- Claim C5 (amended): in variant B, after a successful run no text
(object) column contains missing entries, and the value `mode()[0]` used
to fill is the most frequent non-missing value with ties broken by
ascending (lexicographic) order — the least most-frequent value — not by
first occurrence; the spec's example ["a","a",missing,"b"] still becomes
"a". -/
theorem hii_mode_imputation :
    (∀ df o, wf df = true → hii.clean_data df = some o →
      ∀ j ∈ dtypeIdxs df.header Dtype.obj,
        ∀ r ∈ o.rows, r.getD j Cell.na ≠ Cell.na) ∧
    (∀ l v, mode0 l = some v →
      v ∈ l ∧ l.count v = maxCount l ∧
        ∀ w ∈ l, l.count w = maxCount l → lexLe v w = true) ∧
    hii.clean_data exC5s = some exC5sOut := by
  refine ⟨fun df o hwf ho j hj r hr => ?_, mode0_spec, by decide⟩
  obtain ⟨hh, hrw, hflag⟩ := hii_clean_data_some df o ho
  have hjs : dtypeIdxs (hii.preText df).header Dtype.obj
      = dtypeIdxs df.header Dtype.obj := by
    refine dtypeIdxs_congr _ _ _ ?_
    show (df.header.map (fun nd => (normName nd.1, nd.2))).map Prod.snd
      = df.header.map Prod.snd
    rw [List.map_map]
    rfl
  have hj2 : j ∈ dtypeIdxs (hii.preText df).header Dtype.obj := by
    rw [hjs]
    exact hj
  have hlen : ∀ r2 ∈ (hii.preText df).rows,
      ∀ j2 ∈ dtypeIdxs (hii.preText df).header Dtype.obj, j2 < r2.length := by
    intro r2 hr2 j2 hj2m
    have hj2lt : j2 < df.header.length := by
      rw [hjs] at hj2m
      exact ((mem_dtypeIdxs _ _ _).mp hj2m).1
    have hl := rowsLen_fillNumSteps
      (dtypeIdxs (renameCols (dropDuplicates df)).header Dtype.num)
      df.header.length (dedupFirst df.rows)
      (fun r3 hr3 => wf_row_length df hwf r3 ((mem_dedupFirst _ _).mp hr3))
    have hr2len : r2.length = df.header.length := hl r2 hr2
    rw [hr2len]
    exact hj2lt
  have hnoNa := fillTextGo_noNa (dtypeIdxs (hii.preText df).header Dtype.obj)
    (hii.preText df).rows (dtypeIdxs_nodup _ _) hlen hflag j hj2
  refine hnoNa _ ?_
  rw [mem_colCells]
  exact ⟨r, by rw [← hrw]; exact hr, rfl⟩

theorem hii_mode_imputation_witness :
    ([Cell.num 3, Cell.str (pyStr "a")] : List Cell).getD 1 Cell.na ≠ Cell.na :=
  hii_mode_imputation.1 exC5s exC5sOut (by decide) (by decide) 1 (by decide)
    [Cell.num 3, Cell.str (pyStr "a")] (by decide)

/-! Well-formedness is preserved by rename plus dedup -/

theorem wf_dropDuplicates_renameCols (df : DF) (hwf : wf df = true) :
    wf (dropDuplicates (renameCols df)) = true := by
  have hhlen : (dropDuplicates (renameCols df)).header.length = df.header.length := by
    show (df.header.map (fun nd => (normName nd.1, nd.2))).length = df.header.length
    rw [List.length_map]
  refine wf_of _ (fun r hr => ?_)
  have hrdf : r ∈ df.rows := (mem_dedupFirst _ _).mp hr
  constructor
  · rw [wf_row_length df hwf r hrdf, hhlen]
  · intro j hj
    have h2 : ((dropDuplicates (renameCols df)).header.getD j hdrD).2
        = (df.header.getD j hdrD).2 := by
      refine getD_snd_congr _ _ j ?_
      show (df.header.map (fun nd => (normName nd.1, nd.2))).map Prod.snd
        = df.header.map Prod.snd
      rw [List.map_map]
      rfl
    rw [h2]
    exact wf_cellOk df hwf r hrdf j (by rw [← hhlen]; exact hj)

theorem noMissing_dropDuplicates_renameCols (df : DF) (hnm : noMissing df = true) :
    noMissing (dropDuplicates (renameCols df)) = true := by
  refine noMissing_of _ (fun r hr c hc => ?_)
  exact noMissing_cell df hnm r ((mem_dedupFirst _ _).mp hr) c hc

theorem renameCols_of_dd_rename (df : DF) :
    renameCols (dropDuplicates (renameCols df)) = dropDuplicates (renameCols df) := by
  rw [renameCols_dropDuplicates_comm, renameCols_idem]

theorem dropDuplicates_idem (df : DF) :
    dropDuplicates (dropDuplicates df) = dropDuplicates df := by
  refine DF_fields_eq _ _ rfl ?_
  exact dedupFirst_idem df.rows

/-- Counterexample to claim C4 as stated: median imputation runs after
duplicate removal, so normalizing the single numeric column [1, missing]
yields [1, 1], on which a second normalization removes a row — in both
variants `clean_data` is not idempotent. -/
theorem clean_data_not_idempotent :
    byyy.clean_data (byyy.clean_data exC4) ≠ byyy.clean_data exC4 ∧
    hii.clean_data exC4 = some exC4once ∧
    hii.clean_data exC4once = some exC4twice ∧
    exC4twice ≠ exC4once := by
  exact ⟨by decide, by decide, by decide, by decide⟩

/-- Claim C4 (amended): `clean_data` is idempotent on well-formed inputs
with no missing values — where imputation cannot create new duplicate
rows — provided (variant A) the normalized header has no
timestamp/date/watch_date column (date parsing can blank or merge rows);
for variant B, a successful run re-runs to the same output.  On inputs
with missing values idempotence fails, see the counterexample. -/
theorem clean_data_idempotent_on_complete_inputs (df : DF)
    (hwf : wf df = true) (hnm : noMissing df = true) :
    (firstDateIdx (renameCols df) = none →
      byyy.clean_data (byyy.clean_data df) = byyy.clean_data df) ∧
    (∀ o, hii.clean_data df = some o → hii.clean_data o = some o) := by
  have hwfD := wf_dropDuplicates_renameCols df hwf
  have hnmD := noMissing_dropDuplicates_renameCols df hnm
  constructor
  · intro hdate
    have h1 := byyy_clean_plain df hwf hnm hdate
    rw [h1]
    have hdateD : firstDateIdx (renameCols (dropDuplicates (renameCols df))) = none := by
      rw [renameCols_of_dd_rename]
      rw [firstDateIdx_congr (dropDuplicates (renameCols df)) (renameCols df) rfl]
      exact hdate
    rw [byyy_clean_plain _ hwfD hnmD hdateD, renameCols_of_dd_rename, dropDuplicates_idem]
  · intro o ho
    have ho2 : o = dropDuplicates (renameCols df) := hii_clean_plain df hwf hnm o ho
    rw [ho2]
    have hflag1 := (hii_clean_data_some df o ho).2.2
    have hpredf : hii.preText df = dropDuplicates (renameCols df) :=
      hii_preText_plain df hwf hnm
    rw [hpredf] at hflag1
    have hpre2 : hii.preText (dropDuplicates (renameCols df))
        = dropDuplicates (renameCols df) := by
      rw [hii_preText_plain _ hwfD hnmD, renameCols_of_dd_rename, dropDuplicates_idem]
    have hflag2 : (fillTextGo
        (dtypeIdxs (hii.preText (dropDuplicates (renameCols df))).header Dtype.obj)
        (hii.preText (dropDuplicates (renameCols df))).rows).2 = true := by
      rw [hpre2]
      exact hflag1
    rw [hii_clean_data_eq_some _ hflag2]
    congr 1
    have hgo : (fillTextGo
        (dtypeIdxs (hii.preText (dropDuplicates (renameCols df))).header Dtype.obj)
        (hii.preText (dropDuplicates (renameCols df))).rows).1
        = (dropDuplicates (renameCols df)).rows := by
      rw [hpre2]
      refine fillTextGo_fst_eq_self _ _ (fun r hr j hj => ?_) (fun r hr c hc =>
        noMissing_cell df hnm r ((mem_dedupFirst _ _).mp hr) c hc)
      have hjlt : j < (dropDuplicates (renameCols df)).header.length :=
        ((mem_dtypeIdxs _ _ _).mp hj).1
      have hrl : r.length = df.header.length :=
        wf_row_length df hwf r ((mem_dedupFirst _ _).mp hr)
      have hhlen : (dropDuplicates (renameCols df)).header.length = df.header.length := by
        show (df.header.map (fun nd => (normName nd.1, nd.2))).length = df.header.length
        rw [List.length_map]
      rw [hrl, ← hhlen]
      exact hjlt
    refine DF_fields_eq _ _ ?_ ?_
    · rw [hpre2]
    · exact hgo

theorem clean_data_idempotent_on_complete_inputs_witness :
    byyy.clean_data (byyy.clean_data exC4w) = byyy.clean_data exC4w ∧
    hii.clean_data exC4w = some exC4wOut ∧
    hii.clean_data exC4wOut = some exC4wOut :=
  ⟨(clean_data_idempotent_on_complete_inputs exC4w (by decide) (by decide)).1 (by decide),
   by decide,
   (clean_data_idempotent_on_complete_inputs exC4w (by decide) (by decide)).2
     exC4wOut (by decide)⟩

/-- Counterexample to claim C8 as stated: median imputation runs after
duplicate removal and can recreate exactly equal rows — cleaning the
single numeric column [1, missing] yields two identical rows [1], [1]. -/
theorem clean_data_leaves_duplicates_after_imputation :
    (byyy.clean_data exC8).rows = [[Cell.num 1], [Cell.num 1]] ∧
    ¬ (byyy.clean_data exC8).rows.Nodup := by
  exact ⟨by decide, by decide⟩

/-- Claim C8 (amended): on a well-formed input with no missing values
(and, for variant A, no timestamp/date/watch_date column after
normalization), no two output rows are exactly equal; an input whose rows
contain exactly one duplicated pair loses exactly the second copy, the
first (surviving) copy being unchanged.  Imputation on inputs with missing
values can recreate duplicates, see the counterexample. -/
theorem clean_data_dedup_on_complete_inputs (df : DF)
    (hwf : wf df = true) (hnm : noMissing df = true) :
    (firstDateIdx (renameCols df) = none →
      (byyy.clean_data df).rows.Nodup ∧
      ∀ (xs ys zs : List (List Cell)) (a : List Cell),
        df.rows = xs ++ a :: (ys ++ a :: zs) →
        (xs ++ a :: (ys ++ zs)).Nodup →
        (byyy.clean_data df).rows = xs ++ a :: (ys ++ zs)) ∧
    (∀ o, hii.clean_data df = some o →
      o.rows.Nodup ∧
      ∀ (xs ys zs : List (List Cell)) (a : List Cell),
        df.rows = xs ++ a :: (ys ++ a :: zs) →
        (xs ++ a :: (ys ++ zs)).Nodup →
        o.rows = xs ++ a :: (ys ++ zs)) := by
  constructor
  · intro hdate
    rw [byyy_clean_plain df hwf hnm hdate]
    refine ⟨dedupFirst_nodup _, fun xs ys zs a hrw hnd => ?_⟩
    show dedupFirst df.rows = _
    rw [hrw]
    exact dedupFirst_one_dup xs ys zs a hnd
  · intro o ho
    rw [hii_clean_plain df hwf hnm o ho]
    refine ⟨dedupFirst_nodup _, fun xs ys zs a hrw hnd => ?_⟩
    show dedupFirst df.rows = _
    rw [hrw]
    exact dedupFirst_one_dup xs ys zs a hnd

theorem clean_data_dedup_on_complete_inputs_witness :
    (byyy.clean_data exC8w).rows
      = [] ++ [Cell.num 1] :: ([[Cell.num 2]] ++ [[Cell.num 3]]) :=
  ((clean_data_dedup_on_complete_inputs exC8w (by decide) (by decide)).1
    (by decide)).2 [] [[Cell.num 2]] [[Cell.num 3]] [Cell.num 1] (by decide) (by decide)

/-! Heap reasoning for the no-mutation contract -/

theorem getD_snoc_self {α : Type} (l : List α) (x d : α) :
    (l ++ [x]).getD l.length d = x := by
  rw [List.getD_append_right _ _ _ _ (Nat.le_refl _), Nat.sub_self]
  rfl

theorem getD_snoc_set_self {α : Type} (l : List α) (x u d : α) :
    ((l ++ [x]).set l.length u).getD l.length d = u := by
  refine getD_set_self _ _ _ _ ?_
  rw [List.length_append]
  simp

theorem getD_snoc_set_lt {α : Type} (l : List α) (x u d : α) (i : Nat)
    (hi : i < l.length) :
    ((l ++ [x]).set l.length u).getD i d = l.getD i d := by
  rw [getD_set_ne _ _ _ _ _ (by omega), List.getD_append _ _ _ _ hi]

theorem length_snoc_set {α : Type} (l : List α) (x u : α) :
    ((l ++ [x]).set l.length u).length = l.length + 1 := by
  simp

/-- Claim C9: `clean_data` does not mutate its argument, in either
variant.  In the heap model, `df.copy()` allocates a fresh object and all
in-place updates (`df.columns = ...`, `df[col] = ...`) hit copies or
freshly allocated frames, so the heap cell of the input reference is
unchanged by the whole body — even when variant B's imputation loop
raises — and the returned reference holds exactly the value of the pure
`clean_data` function. -/
theorem clean_data_does_not_mutate_input (h : List DF) (r : Nat)
    (hr : r < h.length) :
    (byyy.cleanProg h r).1.getD r default = h.getD r default ∧
    (byyy.cleanProg h r).1.getD (byyy.cleanProg h r).2 default
      = byyy.clean_data (h.getD r default) ∧
    (hii.cleanProg h r).1.getD r default = h.getD r default ∧
    (∀ d, (hii.cleanProg h r).2 = some d →
      hii.clean_data (h.getD r default)
        = some ((hii.cleanProg h r).1.getD d default)) := by
  refine ⟨?_, ?_, ?_, ?_⟩
  · simp only [byyy.cleanProg]
    rw [getD_snoc_set_lt _ _ _ _ r (by rw [length_snoc_set, length_snoc_set]; omega)]
    rw [getD_snoc_set_lt _ _ _ _ r (by rw [length_snoc_set]; omega)]
    rw [getD_snoc_set_lt _ _ _ _ r hr]
  · simp only [byyy.cleanProg, getD_snoc_self, getD_snoc_set_self]
    rfl
  · simp only [hii.cleanProg, List.set_set]
    rw [getD_snoc_set_lt _ _ _ _ r (by rw [List.length_append]; omega)]
    rw [List.getD_append _ _ _ _ hr]
  · simp only [hii.cleanProg, List.set_set, getD_snoc_self, getD_snoc_set_self]
    intro d hd
    by_cases hb : (fillTextGo
        (dtypeIdxs (fillNumeric (renameCols (dropDuplicates (h.getD r default)))).header
          Dtype.obj)
        (fillNumeric (renameCols (dropDuplicates (h.getD r default)))).rows).2 = true
    · rw [if_pos hb] at hd
      injection hd with hd
      rw [← hd]
      rw [getD_snoc_set_self]
      simp only [hii.clean_data]
      have hpre : fillNumeric (renameCols (dropDuplicates (h.getD r default)))
          = hii.preText (h.getD r default) := rfl
      rw [hpre] at hb
      rw [hpre, if_pos hb]
    · rw [if_neg hb] at hd
      exact absurd hd (by simp)

theorem clean_data_does_not_mutate_input_witness :
    (byyy.cleanProg [exC9] 0).1.getD 0 default = [exC9].getD 0 default ∧
    (hii.cleanProg [exC9] 0).1.getD 0 default = [exC9].getD 0 default :=
  ⟨(clean_data_does_not_mutate_input [exC9] 0 (by decide)).1,
   (clean_data_does_not_mutate_input [exC9] 0 (by decide)).2.2.1⟩
